import Mathlib

/-!  Verification of the rclone `serve s3` WebDAV proxy backend
(package `cmd/serve/s3` of the JankariTech rclone fork): a shallow
embedding of its data model and operations, and theorems about the S3
semantics it implements.

The backend translates S3 operations onto a per-access-key VFS view of
a WebDAV remote.  Go paths are modelled as lists of path segments, the
remote tree as an inductive tree, byte contents as `List Nat`, and Go
`int64` as `Int`.  Functions present under the repository's source are
translated from that source; helpers whose files are not part of the
source snapshot are modelled from the specification and say so in
their doc comments.  -/

namespace RcloneServeS3

/-- User metadata attached to an object (`map[string]string` in Go),
as an association list from header name to value. -/
abbrev Meta := List (String × String)

/-- Error kinds observable from the backend operations.  `enoent` is
`vfs.ENOENT`; the `gofakes3` sentinel errors keep their names; `ioErr`
stands for a generic I/O failure (a failed `io.Copy` or `Close`);
`unauthorized` is the WebDAV 401/403 kind; `outOfFuel` is an artifact
of the embedding marking exhausted recursion fuel. -/
inductive Err where
  | enoent
  | enotempty
  | unauthorized
  | ioErr
  | bucketNotFound (bucket : String)
  | keyNotFound (key : String)
  | errNoSuchKey
  | errInternal
  | errBucketAlreadyExists
  | errBucketNotEmpty
  | invalidRange
  | outOfFuel
  deriving DecidableEq, Repr

/-- A node of the filesystem tree seen through the VFS: a file with its
byte contents and modification time, or a directory with its named
children (`vfs.Node`). -/
inductive FSNode where
  | file (contents : List Nat) (modTime : Int)
  | dir (modTime : Int) (children : List (String × FSNode))
  deriving Repr

/-- Find the (first) child with the given name in a directory's entry
list (name resolution inside one directory). -/
def findChild : List (String × FSNode) → String → Option FSNode
  | [], _ => none
  | (n, c) :: rest, s => if n = s then some c else findChild rest s

/-- Replace the binding of `s` (or append one) in a directory's entry
list. -/
def setChild : List (String × FSNode) → String → FSNode → List (String × FSNode)
  | [], s, c => [(s, c)]
  | (n, c₀) :: rest, s, c =>
    if n = s then (s, c) :: rest else (n, c₀) :: setChild rest s c

/-- Remove the binding of `s` from a directory's entry list. -/
def removeChild : List (String × FSNode) → String → List (String × FSNode)
  | [], _ => []
  | (n, c₀) :: rest, s => if n = s then rest else (n, c₀) :: removeChild rest s

/-- Resolve a path (as segments) in the tree: the resolution step of
`VFS.Stat`. -/
def FSNode.lookup : FSNode → List String → Option FSNode
  | n, [] => some n
  | .file _ _, _ :: _ => none
  | .dir _ children, s :: rest =>
    match findChild children s with
    | none => none
    | some c => FSNode.lookup c rest

/-- Stat (`VFS.Stat`) on the tree model: `vfs.ENOENT` when the path
does not resolve. -/
def statP (root : FSNode) (p : List String) : Except Err FSNode :=
  match root.lookup p with
  | none => .error .enoent
  | some n => .ok n

/-- Install `node` at path `p` (`VFS.Create`, or the committed write of
a file): every ancestor must already resolve to a directory; replaces
any existing node at `p`. -/
def createAt : FSNode → List String → FSNode → Except Err FSNode
  | _, [], _ => .error .errInternal
  | .file _ _, _ :: _, _ => .error .enoent
  | .dir m children, [s], node => .ok (.dir m (setChild children s node))
  | .dir m children, s :: t :: rest, node =>
    match findChild children s with
    | none => .error .enoent
    | some c =>
      match createAt c (t :: rest) node with
      | .error e => .error e
      | .ok c' => .ok (.dir m (setChild children s c'))

/-- Remove (`VFS.Remove`) on the tree model: fails with `enoent` when
`p` does not resolve and with `enotempty` when `p` is a non-empty
directory (the VFS refuses to remove those). -/
def removeAt : FSNode → List String → Except Err FSNode
  | _, [] => .error .errInternal
  | .file _ _, _ :: _ => .error .enoent
  | .dir m children, [s] =>
    match findChild children s with
    | none => .error .enoent
    | some (.dir _ (_ :: _)) => .error .enotempty
    | some _ => .ok (.dir m (removeChild children s))
  | .dir m children, s :: t :: rest =>
    match findChild children s with
    | none => .error .enoent
    | some c =>
      match removeAt c (t :: rest) with
      | .error e => .error e
      | .ok c' => .ok (.dir m (setChild children s c'))

/-- Chtimes (`VFS.Chtimes`) on the tree model: set the modification
time of the node at `p`. -/
def chtimesAt : FSNode → List String → Int → Except Err FSNode
  | _, [], _ => .error .errInternal
  | .file _ _, _ :: _, _ => .error .enoent
  | .dir m children, [s], t =>
    match findChild children s with
    | none => .error .enoent
    | some (.file contents _) =>
      .ok (.dir m (setChild children s (.file contents t)))
    | some (.dir _ cs) => .ok (.dir m (setChild children s (.dir t cs)))
  | .dir m children, s :: u :: rest, t =>
    match findChild children s with
    | none => .error .enoent
    | some c =>
      match chtimesAt c (u :: rest) t with
      | .error e => .error e
      | .ok c' => .ok (.dir m (setChild children s c'))

/-- The byte contents of the file at `p`, when `p` resolves to a
file. -/
def fileContentsAt (root : FSNode) (p : List String) : Option (List Nat) :=
  match root.lookup p with
  | some (.file contents _) => some contents
  | _ => none

/-- A child name the VFS can produce: non-empty and slash-free. -/
def childNameOk (s : String) : Bool :=
  (s != "") && !(s.data.contains '/')

/-- Holds when `s` is not bound in the entry list. -/
def keyFree (s : String) : List (String × FSNode) → Bool
  | [] => true
  | (n, _) :: rest => if n = s then false else keyFree s rest

mutual

/-- Well-formedness of a tree as the VFS guarantees it: in every
directory the child names are pairwise distinct, non-empty and
slash-free. -/
def FSNode.wf : FSNode → Bool
  | .file _ _ => true
  | .dir _ children => wfChildren children

/-- Well-formedness of a directory's entry list. -/
def wfChildren : List (String × FSNode) → Bool
  | [] => true
  | (n, c) :: rest =>
    childNameOk n && keyFree n rest && FSNode.wf c && wfChildren rest

end

/-! ## URL encoding, content hash, float-seconds times

These model external collaborators the spec declares as given
interfaces: the `gofakes3` URL encoder and the `swift` float-seconds
time parser. -/

/-- Hexadecimal digits, upper case. -/
def hexDigits : List Char :=
  ['0', '1', '2', '3', '4', '5', '6', '7', '8', '9', 'A', 'B', 'C', 'D', 'E', 'F']

/-- Hexadecimal digit of a value below 16. -/
def hexDigit (n : Nat) : Char :=
  hexDigits.getD n '0'

/-- UTF-8 bytes of a unicode code point. -/
def utf8Bytes (n : Nat) : List Nat :=
  if n < 128 then [n]
  else if n < 2048 then [192 + n / 64, 128 + n % 64]
  else if n < 65536 then [224 + n / 4096, 128 + n / 64 % 64, 128 + n % 64]
  else [240 + n / 262144, 128 + n / 4096 % 64, 128 + n / 64 % 64, 128 + n % 64]

/-- Percent-encoding of one byte, as characters. -/
def percentByte (b : Nat) : List Char :=
  ['%', hexDigit (b / 16), hexDigit (b % 16)]

/-- Characters AWS-style key encoding keeps verbatim (the unreserved
set). -/
def urlUnreserved (c : Char) : Bool :=
  c.isAlphanum || c == '-' || c == '_' || c == '.' || c == '~'

/-- Modelled from the spec: `gofakes3.URLEncode` on one character —
"object keys and bucket names in list responses are URL-encoded
(AWS-compatible)": unreserved characters and the path separator `/`
are kept, everything else is percent-encoded as its UTF-8 bytes. -/
def urlEncodeChar (c : Char) : List Char :=
  if c == '/' || urlUnreserved c then [c]
  else (utf8Bytes c.toNat).flatMap percentByte

/-- Modelled from the spec: `gofakes3.URLEncode` over a key. -/
def urlEncode (s : String) : String :=
  String.mk (s.data.flatMap urlEncodeChar)

/-- Modelled from the spec: `getFileHash` — "An object's ETag in
responses is its content hash in hex, quoted".  The adapter's content
hash is modelled as the byte sequence itself (no claim depends on the
digest function). -/
def getFileHash (contents : List Nat) : String :=
  "\"" ++ String.mk (contents.flatMap (fun b => [hexDigit (b / 16), hexDigit (b % 16)])) ++ "\""

/-- Splitting a character list at a separator (the behaviour of Go
`strings.Split` and of `path` segmentation): accumulates the current
piece in reverse. -/
def splitCharAux (sep : Char) (cur : List Char) : List Char → List String
  | [] => [String.mk cur.reverse]
  | c :: rest =>
    if c = sep then String.mk cur.reverse :: splitCharAux sep [] rest
    else splitCharAux sep (c :: cur) rest

/-- Splitting a string at a separator character (Go `strings.Split`). -/
def splitChar (s : String) (sep : Char) : List String :=
  splitCharAux sep [] s.data

/-- Go `strings.TrimSpace`, on the character list. -/
def trimSpace (s : String) : String :=
  String.mk (((s.data.dropWhile Char.isWhitespace).reverse.dropWhile Char.isWhitespace).reverse)

/-- Digits-only string to a number; fails on anything else or on an
empty string. -/
def digitsToNat? (s : List Char) : Option Nat :=
  if s = [] then none
  else if s.all Char.isDigit then
    some (s.foldl (fun a c => a * 10 + (c.toNat - 48)) 0)
  else none

/-- Modelled from the spec: `swift.FloatStringToTime` accepts a
"float-seconds string" — decimal digits with at most one fractional
part — and fails on anything else.  The returned value is an encoding
of the parsed string; no theorem below depends on the encoding. -/
def floatStringToTime (s : String) : Option Int :=
  match splitChar s '.' with
  | [ip] => (digitsToNat? ip.data).map Int.ofNat
  | [ip, fp] =>
    match digitsToNat? ip.data, digitsToNat? fp.data with
    | some n, some f => some (Int.ofNat (n * 1000000000 + f))
    | _, _ => none
  | _ => none

/-- Modelled from the spec: `swift.TimeToFloatString`, the inverse
direction used when a copy defaults the target mtime. -/
def timeToFloatString (t : Int) : String :=
  toString t

/-! ## Metadata maps and the metadata overlay -/

/-- Lookup in a user-metadata map. -/
def lookupMeta : Meta → String → Option String
  | [], _ => none
  | (k, v) :: rest, s => if k = s then some v else lookupMeta rest s

/-- Update (or add) one key of a user-metadata map. -/
def metaSet : Meta → String → String → Meta
  | [], s, v => [(s, v)]
  | (k, v₀) :: rest, s, v =>
    if k = s then (s, v) :: rest else (k, v₀) :: metaSet rest s v

/-- Lookup in the process-wide metadata overlay (`tmpMetaStorage`),
keyed by the joined object path. -/
def loadMeta : List (List String × Meta) → List String → Option Meta
  | [], _ => none
  | (k, m) :: rest, fp => if k = fp then some m else loadMeta rest fp

/-- Store into the metadata overlay (`tmpMetaStorage.Store` replaces
the whole entry for the path). -/
def metaStore : List (List String × Meta) → List String → Meta → List (List String × Meta)
  | [], fp, m => [(fp, m)]
  | (k, m₀) :: rest, fp, m =>
    if k = fp then (fp, m) :: rest else (k, m₀) :: metaStore rest fp m

/-! ## The per-identity VFS factory (claims C1 and C2)

The repository's `setAuthForWebDAV` builds, per request, a filesystem
whose rclone config name is the remote's name with the access key
appended, wraps it in a VFS and sets the WebDAV bearer token to the
access key.  The `vfs` and `backend/webdav` packages it leans on are
rclone code outside the source snapshot, so their contracts are
modelled from the spec: `vfs.New` returns the process-wide active VFS
with the same configuration when there is one, and every WebDAV request
issued through a view carries `Authorization: Bearer <token>`. -/

/-- Modelled from the spec: an identity-bound filesystem view — "a
logical filesystem instance carrying one bearer token".  `fsName` is
the config name its filesystem was constructed under and `bearer` the
WebDAV bearer token it presents. -/
structure VFSView where
  fsName : String
  bearer : String
  deriving DecidableEq, Repr

/-- Modelled from the spec: "Authentication on egress (WebDAV):
`Authorization: Bearer <access-key-verbatim>` header on every request"
— the header every WebDAV call through the view carries. -/
def VFSView.authHeader (v : VFSView) : String :=
  "Bearer " ++ v.bearer

/-- Modelled from the spec: the process-wide table of active VFS
instances kept by the `vfs` package, keyed by config name; it lives
until process exit. -/
structure IFState where
  cache : List (String × VFSView)
  deriving DecidableEq, Repr

/-- Lookup in the active-VFS table. -/
def lookupCache : List (String × VFSView) → String → Option VFSView
  | [], _ => none
  | (n, v) :: rest, s => if n = s then some v else lookupCache rest s

/-- Update (or add) an entry of the active-VFS table. -/
def updateCache : List (String × VFSView) → String → VFSView → List (String × VFSView)
  | [], s, v => [(s, v)]
  | (n, v₀) :: rest, s, v =>
    if n = s then (s, v) :: rest else (n, v₀) :: updateCache rest s v

/-- Modelled from the spec: `vfs.New` on a filesystem with config name
`cfgName` — return the active view registered under that name, or
register and return a fresh one (constructed with no bearer token
yet). -/
def vfsNew (st : IFState) (cfgName : String) : IFState × VFSView :=
  match lookupCache st.cache cfgName with
  | some v => (st, v)
  | none =>
    let v : VFSView := { fsName := cfgName, bearer := "" }
    ({ cache := updateCache st.cache cfgName v }, v)

/-- Embedded from `backend.go`, `setAuthForWebDAV`: for a WebDAV
remote, construct a filesystem under the config name
`remoteName ++ accessKey`, wrap it in a VFS (the modelled `vfs.New`
hands back the cached active view for that name when one exists) and
set the bearer token of the view's filesystem to the access key — the
token mutation is visible through the cache, as it is through the
shared `webdav.Fs` pointer in Go.  For any other remote type, the
single shared view of the server's filesystem is used. -/
def setAuthForWebDAV (isWebDAV : Bool) (remoteName : String) (st : IFState) (accessKey : String) : IFState × VFSView :=
  if isWebDAV then
    let cfgName := remoteName ++ accessKey
    let (st₁, vf₀) := vfsNew st cfgName
    let vf := { vf₀ with bearer := accessKey }
    ({ cache := updateCache st₁.cache cfgName vf }, vf)
  else
    vfsNew st remoteName

/-- One request's egress authentication: acquire the view for the
request's access key and record the Authorization header its outgoing
WebDAV calls carry. -/
def serveRequest (remoteName : String) (st : IFState) (accessKey : String) : IFState × String :=
  let (st', vf) := setAuthForWebDAV true remoteName st accessKey
  (st', vf.authHeader)

/-- A sequence of requests processed against one process's view cache:
the trace of (access key, observed Authorization header) pairs. -/
def serveTrace (remoteName : String) (st : IFState) : List String → IFState × List (String × String)
  | [] => (st, [])
  | k :: ks =>
    let (st₁, h) := serveRequest remoteName st k
    let (st₂, tr) := serveTrace remoteName st₁ ks
    (st₂, (k, h) :: tr)

/-! ## Bucket listing (claims C3 and C4) -/

/-- An item of a `gofakes3.ObjectList` response: a common prefix or a
content entry (key, LastModified, ETag, Size; the storage class is the
constant `STANDARD`). -/
inductive ListItem where
  | commonPrefix (s : String)
  | content (key : String) (modTime : Int) (etag : String) (size : Int)
  deriving DecidableEq, Repr

/-- Modelled from the spec: `getDirEntries` (a helper whose file is not
in the source snapshot) — readdir through the VFS: stat the path; a
path that does not resolve, or resolves to a file, is the engine's
no-such-key error (at the adapter "HTTP 404 surfaces as ENOENT");
otherwise the directory's entries. -/
def getDirEntries (root : FSNode) (p : List String) : Except Err (List (String × FSNode)) :=
  match root.lookup p with
  | none => .error .errNoSuchKey
  | some (.file _ _) => .error .errNoSuchKey
  | some (.dir _ children) => .ok children

/-- Go `strings.HasPrefix` on the character lists of the strings. -/
def hasPrefixStr (s pre : String) : Bool :=
  decide (pre.data <+: s.data)

/-- Join of clean path segments as `path.Join` behaves on them: the
segments joined by `/`. -/
def joinSegs : List String → String
  | [] => ""
  | [s] => s
  | s :: t :: rest => s ++ "/" ++ joinSegs (t :: rest)

/-- Join of a clean segment path with a clean entry name (the
`path.Join(fdPath, object)` of the listing walker). -/
def joinSeg (fdPath : List String) (object : String) : String :=
  joinSegs (fdPath ++ [object])

mutual

/-- Embedded from the listing walker `entryListR`: read the directory
at `bucket/fdPath`; every entry whose name starts with `name` is
emitted — a directory as a common prefix when `addPrefix` is set and by
recursing into it with an empty name component otherwise, a file as a
content item keyed by the URL-encoded `fdPath/entry`.  `fuel` bounds
the recursion depth (in Go it is bounded by the remote tree's depth);
exhausting it is an artifact of the embedding. -/
def entryListR : Nat → FSNode → String → List String → String → Bool → Except Err (List ListItem)
  | 0, _, _, _, _, _ => .error .outOfFuel
  | fuel + 1, root, bucket, fdPath, name, addPrefix =>
    match getDirEntries root (bucket :: fdPath) with
    | .error e => .error e
    | .ok dirEntries => entryListLoop fuel root bucket fdPath name addPrefix dirEntries
termination_by fuel _ _ _ _ _ => (fuel, 0, 0)

/-- The loop of `entryListR` over the directory entries just read. -/
def entryListLoop : Nat → FSNode → String → List String → String → Bool → List (String × FSNode) → Except Err (List ListItem)
  | _, _, _, _, _, _, [] => .ok []
  | fuel, root, bucket, fdPath, name, addPrefix, (object, node) :: rest =>
    if hasPrefixStr object name then
      match node with
      | .dir _ _ =>
        if addPrefix then
          match entryListLoop fuel root bucket fdPath name addPrefix rest with
          | .error e => .error e
          | .ok items =>
            .ok (.commonPrefix (urlEncode (joinSeg fdPath object)) :: items)
        else
          match entryListR fuel root bucket (fdPath ++ [object]) "" false with
          | .error e => .error e
          | .ok sub =>
            match entryListLoop fuel root bucket fdPath name addPrefix rest with
            | .error e => .error e
            | .ok items => .ok (sub ++ items)
      | .file contents modTime =>
        match entryListLoop fuel root bucket fdPath name addPrefix rest with
        | .error e => .error e
        | .ok items =>
          .ok (.content (urlEncode (joinSeg fdPath object)) modTime
                (getFileHash contents) contents.length :: items)
    else
      entryListLoop fuel root bucket fdPath name addPrefix rest
termination_by fuel _ _ _ _ _ entries => (fuel, 1, entries.length)
end

/-- The prefix/delimiter controls of a listing (`gofakes3.Prefix`). -/
structure PrefixQ where
  hasPrefix : Bool
  prefixStr : String
  hasDelimiter : Bool
  delimiter : String
  deriving DecidableEq, Repr

/-- Pagination controls of a listing (`gofakes3.ListBucketPage`). -/
structure ListBucketPage where
  marker : Option String
  maxKeys : Option Nat
  deriving DecidableEq, Repr

/-- The key a response item sorts and paginates by. -/
def ListItem.key : ListItem → String
  | .commonPrefix s => s
  | .content k _ _ _ => k

/-- Modelled from the spec: the pager — "after collecting all matching
items, apply marker ... and max-keys", with lexicographic ordering by
URL-encoded key and common prefixes sorting with contents. -/
def pager (resp : List ListItem) (page : ListBucketPage) : List ListItem :=
  let sorted := resp.mergeSort (fun a b => a.key ≤ b.key)
  let afterMarker :=
    match page.marker with
    | none => sorted
    | some m => sorted.filter (fun it => decide (m < it.key))
  match page.maxKeys with
  | none => afterMarker
  | some k => afterMarker.take k

mutual

/-- All descendant files of one named entry, as segment paths relative
to the entry's parent, with contents and modification time. -/
def descFilesEntry (name : String) : FSNode → List (List String × List Nat × Int)
  | .file contents m => [([name], contents, m)]
  | .dir _ children =>
    (descFilesChildren children).map (fun it => (name :: it.1, it.2))

/-- All descendant files below a directory's entry list. -/
def descFilesChildren : List (String × FSNode) → List (List String × List Nat × Int)
  | [] => []
  | (n, c) :: rest => descFilesEntry n c ++ descFilesChildren rest
end

/-- Modelled from the spec: `getObjectsListArbitrary` — the walker used
for bucket-based remotes or a delimiter other than `/`: a "recursive
walk filtered by raw string prefix" emitting every matching descendant
file as a content item. -/
def getObjectsListArbitrary (root : FSNode) (bucket : String) (pfx : PrefixQ) : Except Err (List ListItem) :=
  match root.lookup [bucket] with
  | some (.dir _ children) =>
    .ok ((descFilesChildren children).filterMap (fun it =>
      if hasPrefixStr (joinSegs it.1) pfx.prefixStr then
        some (.content (urlEncode (joinSegs it.1)) it.2.2 (getFileHash it.2.1) it.2.1.length)
      else none))
  | _ => .ok []

/-- Modelled from the spec: `prefixParser` (helper not in the source
snapshot) — "Split `prefix` at the last `/`.  The part before is the
path component ...; the part after is the name component": on segments,
all but the last slash-separated piece, and the last piece.  (Clean S3
prefixes carry no leading slash and no empty middle segment.) -/
def prefixParser (pfx : String) : List String × String :=
  ((splitChar pfx '/').dropLast, (splitChar pfx '/').getLastD "")

/-- Embedded from `backend.go`, `ListBucket`: stat the bucket
(`BucketNotFound` when missing); blank the prefix/delimiter flags when
the strings are blank (the in-source workaround); bucket-based remotes
and delimiters other than `/` go through the arbitrary walker, every
other case through `prefixParser` and `entryListR`; an error from the
walk is returned as-is, a collected response goes through the pager. -/
def listBucket (fuel : Nat) (bucketBased : Bool) (root : FSNode) (bucket : String) (pfx0 : PrefixQ) (page : ListBucketPage) : Except Err (List ListItem) :=
  match root.lookup [bucket] with
  | none => .error (.bucketNotFound bucket)
  | some _ =>
    let pfx1 := if trimSpace pfx0.prefixStr = "" then { pfx0 with hasPrefix := false } else pfx0
    let pfx := if trimSpace pfx1.delimiter = "" then { pfx1 with hasDelimiter := false } else pfx1
    let response :=
      if bucketBased || (pfx.hasDelimiter && pfx.delimiter != "/") then
        getObjectsListArbitrary root bucket pfx
      else
        let (p, remaining) := prefixParser pfx.prefixStr
        entryListR fuel root bucket p remaining pfx.hasDelimiter
    match response with
    | .error e => .error e
    | .ok items => .ok (pager items page)

/-! ## Backend state and object operations (claims C5 to C10) -/

/-- The state a backend operation acts on: the tree behind the
request's VFS view, and the process-wide metadata overlay
(`tmpMetaStorage`), keyed by the joined `bucket/key` path (as
segments). -/
structure BEState where
  fs : FSNode
  meta : List (List String × Meta)

/-- The object path `path.Join(bucketName, objectName)` as segments,
for clean object names (non-empty slash-separated pieces). -/
def objectPath (bucketName objectName : String) : List String :=
  bucketName :: splitChar objectName '/'

/-- The result of `GetObject`: the response object carrying the
reader's bytes (`Contents` — limited to the range when one was asked
for), the full object size, the served range and the metadata overlay
entry.  The display headers derived from the node (Last-Modified,
Content-Type) are not modelled. -/
structure S3Object where
  name : String
  contents : List Nat
  size : Int
  ranged : Option (Int × Int)
  meta : Meta
  deriving DecidableEq, Repr

/-- Modelled from the spec: resolving a range request against the
object size, as the engine's `ObjectRangeRequest.Range` hands it to the
backend — "half-open `[start, start+length)` over an object; `length`
clamped to `size - start`; `start < 0` or `start ≥ size` fails with
InvalidRange".  A `none` request (no Range header) resolves to the
whole object. -/
def rangeOf (size : Int) : Option (Int × Int) → Except Err (Option (Int × Int))
  | none => .ok none
  | some (start, length) =>
    if start < 0 ∨ start ≥ size then .error .invalidRange
    else .ok (some (start, min length (size - start)))

/-- Embedded from `backend.go`, `GetObject`: stat the bucket
(`BucketNotFound` when missing), stat the object path (`KeyNotFound`,
also when it is a directory), open the file, resolve the range request
against the object size, and seek/limit the reader when a range was
asked for; the response carries the full size and the (possibly
limited) bytes. -/
def getObject (st : BEState) (bucketName objectName : String) (rangeRequest : Option (Int × Int)) : Except Err S3Object :=
  match st.fs.lookup [bucketName] with
  | none => .error (.bucketNotFound bucketName)
  | some _ =>
    let fp := objectPath bucketName objectName
    match st.fs.lookup fp with
    | none => .error (.keyNotFound objectName)
    | some (.dir _ _) => .error (.keyNotFound objectName)
    | some (.file contents _) =>
      let size : Int := contents.length
      match rangeOf size rangeRequest with
      | .error e => .error e
      | .ok rnge =>
        let rdr :=
          match rnge with
          | none => contents
          | some (start, length) => (contents.drop start.toNat).take length.toNat
        .ok { name := urlEncode objectName
              contents := rdr
              size := size
              ranged := rnge
              meta := (loadMeta st.meta fp).getD [] }

/-- The operations `TouchObject` needs from its VFS, abstracted over
the state type (claim C10 is about the recursion pattern for an
arbitrary filesystem behind the view, not only the tree model). -/
structure TouchOps (σ : Type) where
  stat : σ → List String → Except Err Unit
  create : σ → List String → Except Err σ
  chtimes : σ → List String → Int → σ × Except Err Unit
  storeMeta : σ → List String → Meta → σ

/-- The shared mtime tail of `TouchObject` and `PutObject` after the
metadata store: apply a parsable `X-Amz-Meta-Mtime`, falling through to
`mtime` when the first is absent or does not parse; a parsed value goes
to `Chtimes`, whose error is returned; no parsable value is success. -/
def applyMetaMtime {σ : Type} (ops : TouchOps σ) (s : σ) (fp : List String) (meta : Meta) : σ × Except Err Unit :=
  let fallback :=
    match lookupMeta meta "mtime" with
    | some v =>
      match floatStringToTime v with
      | some ti => ops.chtimes s fp ti
      | none => (s, .ok ())
    | none => (s, .ok ())
  match lookupMeta meta "X-Amz-Meta-Mtime" with
  | some v =>
    match floatStringToTime v with
    | some ti => ops.chtimes s fp ti
    | none => fallback
  | none => fallback

/-- Embedded from `backend.go`, `TouchObject`: stat the path — on
ENOENT create the file, close it and re-enter `TouchObject`; on any
other stat error fail; otherwise stat again, store the metadata overlay
entry and apply a parsable metadata mtime.  `fuel` bounds the
self-recursion, which the Go code does not bound: exhausting it returns
the artificial `outOfFuel`. -/
def touchObject {σ : Type} (ops : TouchOps σ) : Nat → σ → List String → Meta → σ × Except Err Unit
  | 0, s, _, _ => (s, .error .outOfFuel)
  | fuel + 1, s, fp, meta =>
    match ops.stat s fp with
    | .error .enoent =>
      match ops.create s fp with
      | .error e => (s, .error e)
      | .ok s₁ => touchObject ops fuel s₁ fp meta
    | .error e => (s, .error e)
    | .ok _ =>
      match ops.stat s fp with
      | .error e => (s, .error e)
      | .ok _ => applyMetaMtime ops (ops.storeMeta s fp meta) fp meta

/-- The tree-model instance of the operations `TouchObject` uses:
stat/create/chtimes act on the view's tree, the metadata store on the
overlay. -/
def treeTouchOps : TouchOps BEState where
  stat := fun st fp => (statP st.fs fp).map (fun _ => ())
  create := fun st fp =>
    (createAt st.fs fp (.file [] 0)).map (fun fs' => { st with fs := fs' })
  chtimes := fun st fp t =>
    match chtimesAt st.fs fp t with
    | .error e => (st, .error e)
    | .ok fs' => ({ st with fs := fs' }, .ok ())
  storeMeta := fun st fp meta => { st with meta := metaStore st.meta fp meta }

/-- Modelled from the spec: `mkdirRecursive` (helper not in the source
snapshot) — "ensure directory chain below bucket via recursive mkdir":
walk the path prefixes from the top, creating every component whose
stat fails. -/
def mkdirRecursiveAux (root : FSNode) (done : List String) : List String → Except Err FSNode
  | [] => .ok root
  | s :: rest =>
    let dir := done ++ [s]
    match root.lookup dir with
    | some _ => mkdirRecursiveAux root dir rest
    | none =>
      match createAt root dir (.dir 0 []) with
      | .error e => .error e
      | .ok root' => mkdirRecursiveAux root' dir rest

/-- Modelled from the spec: the directory chain creation of
`PutObject` (see `mkdirRecursiveAux`). -/
def mkdirRecursive (root : FSNode) (p : List String) : Except Err FSNode :=
  mkdirRecursiveAux root [] p

/-- The I/O outcomes `PutObject` cannot determine from the state: what
`io.Copy` from the request body yields (the streamed bytes, or an I/O
error — a client disconnect, for instance), and whether the created
file's `Close` succeeds. -/
structure PutIO where
  copyRes : Except Unit (List Nat)
  closeRes : Except Unit Unit
  deriving Repr

/-- Embedded from `backend.go`, `PutObject`: stat the bucket
(`BucketNotFound`); ensure the directory chain below it
(`mkdirRecursive`; the joined path always has a parent, so the Go
guard `objectDir != "."` always passes); a zero size is a touch;
otherwise create the file and stream the body into it — when the copy
or the close fails the partial file is removed (the removal's own error
is discarded) and the I/O error returned; on success stat the file,
store the metadata overlay entry and apply a parsable metadata mtime.
The committed write is modelled by installing the streamed bytes at the
path (the fallbacks of the two inner matches are unreachable: the path
was just created). -/
def putObject (st : BEState) (bucketName objectName : String) (meta : Meta) (pio : PutIO) (size : Int) : BEState × Except Err Unit :=
  match st.fs.lookup [bucketName] with
  | none => (st, .error (.bucketNotFound bucketName))
  | some _ =>
    let fp := objectPath bucketName objectName
    let objectDir := fp.dropLast
    match mkdirRecursive st.fs objectDir with
    | .error e => (st, .error e)
    | .ok fs₀ =>
      let st₀ : BEState := { st with fs := fs₀ }
      if size = 0 then touchObject treeTouchOps 2 st₀ fp meta
      else
        match createAt st₀.fs fp (.file [] 0) with
        | .error e => (st₀, .error e)
        | .ok fs₁ =>
          match pio.copyRes with
          | .error _ =>
            let fs₂ := match removeAt fs₁ fp with | .ok f => f | .error _ => fs₁
            ({ st₀ with fs := fs₂ }, .error .ioErr)
          | .ok bytes =>
            match pio.closeRes with
            | .error _ =>
              let fs₂ := match removeAt fs₁ fp with | .ok f => f | .error _ => fs₁
              ({ st₀ with fs := fs₂ }, .error .ioErr)
            | .ok _ =>
              let fs₂ := match createAt fs₁ fp (.file bytes 0) with
                | .ok f => f
                | .error _ => fs₁
              let st₁ : BEState := { st₀ with fs := fs₂ }
              match statP st₁.fs fp with
              | .error e => (st₁, .error e)
              | .ok _ =>
                applyMetaMtime treeTouchOps
                  { st₁ with meta := metaStore st₁.meta fp meta } fp meta

/-- Exactly the not-exist test `os.IsNotExist` performs on the modelled
error kinds. -/
def isNotExist : Err → Bool
  | .enoent => true
  | _ => false

/-- Modelled from the spec: `rmdirRecursive` (§4.7, helper not in the
source snapshot) — "walk the parent chain up to (but excluding) the
bucket directory and remove any that are now empty.  Failures are
swallowed." -/
def rmdirRecursive (fs : FSNode) (fp : List String) : FSNode :=
  if _h : fp.dropLast.length ≤ 1 then fs
  else
    match fs.lookup fp.dropLast with
    | some (.dir _ []) =>
      match removeAt fs fp.dropLast with
      | .ok fs' => rmdirRecursive fs' fp.dropLast
      | .error _ => fs
    | _ => fs
termination_by fp.length
decreasing_by
  simp only [List.length_dropLast] at *
  omega

/-- Embedded from `backend.go`, `deleteObjectLocked`: stat the bucket
(`BucketNotFound` when missing); remove the joined path, skipping
not-exist errors ("S3 does not report an error when attempting to
delete a key that does not exist"); then, for remotes that can have
empty directories, the best-effort cleanup of now-empty parents; the
operation reports success in every case but a real removal failure. -/
def deleteObjectLocked (canHaveEmptyDirectories : Bool) (st : BEState) (bucketName objectName : String) : BEState × Except Err Unit :=
  match st.fs.lookup [bucketName] with
  | none => (st, .error (.bucketNotFound bucketName))
  | some _ =>
    let fp := objectPath bucketName objectName
    match removeAt st.fs fp with
    | .error e =>
      if isNotExist e then
        let fs₁ := if canHaveEmptyDirectories then rmdirRecursive st.fs fp else st.fs
        ({ st with fs := fs₁ }, .ok ())
      else (st, .error e)
    | .ok fs₀ =>
      let fs₁ := if canHaveEmptyDirectories then rmdirRecursive fs₀ fp else fs₀
      ({ st with fs := fs₁ }, .ok ())

/-- A stat oracle: `BucketExists` only observes whether `Stat`
succeeded, so the oracle may fail with any error kind — including the
WebDAV `unauthorized` one for a bucket the bearer may not read. -/
structure StatOracle where
  stat : String → Except Err FSNode

/-- Embedded from `backend.go`, `BucketExists`: `(false, nil)` when
`Stat` on the bucket name fails — whatever the failure — and
`(true, nil)` when it succeeds; the error result is always nil. -/
def bucketExists (vf : StatOracle) (name : String) : Except Err Bool :=
  match vf.stat name with
  | .error _ => .ok false
  | .ok _ => .ok true

/-- Merge of the source object's metadata into the caller-supplied one
on a cross-path copy: a source key is taken only when the caller did
not supply it and it is not `X-Amz-Acl`. -/
def mergeCopyMeta (meta : Meta) : Meta → Meta
  | [] => meta
  | (k, v) :: rest =>
    mergeCopyMeta
      (if (lookupMeta meta k).isNone ∧ k ≠ "X-Amz-Acl" then metaSet meta k v else meta)
      rest

/-- The modification time of a node. -/
def FSNode.modTime : FSNode → Int
  | .file _ m => m
  | .dir m _ => m

/-- The metadata value `CopyObject`'s same-path branch selects for the
time update: `X-Amz-Meta-Mtime` when present, else `mtime` (note: no
fallthrough from an unparsable `X-Amz-Meta-Mtime` here, unlike the put
tail). -/
def copyMtimeOf (meta : Meta) : Option String :=
  match lookupMeta meta "X-Amz-Meta-Mtime" with
  | some v => some v
  | none => lookupMeta meta "mtime"

/-- Embedded from `backend.go`, `CopyObject`: when source and
destination coincide, only the metadata overlay entry is stored and —
when the metadata carries `X-Amz-Meta-Mtime`, or else `mtime`, and the
value parses as float-seconds — the path's times are updated through
`Chtimes` (an unparsable value is silently accepted; note there is no
fallthrough from an unparsable `X-Amz-Meta-Mtime` here).  A cross-path
copy stats the source, reads it back through `GetObject`, merges the
source metadata, defaults the target `mtime` to the source's
modification time and streams the contents into `PutObject` (the
in-process stream is modelled as error-free I/O). -/
def copyObject (st : BEState) (srcBucket srcKey dstBucket dstKey : String) (meta : Meta) : BEState × Except Err Unit :=
  let fp := objectPath srcBucket srcKey
  if srcBucket = dstBucket ∧ srcKey = dstKey then
    let st₁ : BEState := { st with meta := metaStore st.meta fp meta }
    match copyMtimeOf meta with
    | none => (st₁, .ok ())
    | some v =>
      match floatStringToTime v with
      | none => (st₁, .ok ())
      | some ti =>
        match chtimesAt st₁.fs fp ti with
        | .error e => (st₁, .error e)
        | .ok fs' => ({ st₁ with fs := fs' }, .ok ())
  else
    match statP st.fs fp with
    | .error e => (st, .error e)
    | .ok cStat =>
      match getObject st srcBucket srcKey none with
      | .error e => (st, .error e)
      | .ok c =>
        let meta₁ := mergeCopyMeta meta c.meta
        let meta₂ :=
          if (lookupMeta meta₁ "mtime").isSome then meta₁
          else metaSet meta₁ "mtime" (timeToFloatString cStat.modTime)
        putObject st dstBucket dstKey meta₂
          { copyRes := .ok c.contents, closeRes := .ok () } c.size

/-! ## Observers used to state the claims -/

mutual

/-- Depth of a node: how many levels of directories sit below it. -/
def depthNode : FSNode → Nat
  | .file _ _ => 0
  | .dir _ children => depthChildren children + 1

/-- The largest depth among the entries. -/
def depthChildren : List (String × FSNode) → Nat
  | [] => 0
  | (_, c) :: rest => max (depthNode c) (depthChildren rest)

end

/-- The content item a descendant file (relative segment path,
contents, mtime) yields under the walk root `fdPath`. -/
def contentItemOf (fdPath : List String) (it : List String × List Nat × Int) : ListItem :=
  .content (urlEncode (joinSegs (fdPath ++ it.1))) it.2.2 (getFileHash it.2.1) it.2.1.length

/-- What one level of the listing emits when grouping is on
(`delimiter = "/"`): per matching entry, a common prefix for a
directory and a content item for a file — nothing deeper. -/
def expectedTopLevel (fdPath : List String) (name : String) (entries : List (String × FSNode)) : List ListItem :=
  (entries.filter (fun e => hasPrefixStr e.1 name)).map (fun e =>
    match e.2 with
    | .dir _ _ => .commonPrefix (urlEncode (joinSeg fdPath e.1))
    | .file contents m =>
      .content (urlEncode (joinSeg fdPath e.1)) m (getFileHash contents) contents.length)

/-- What the recursive listing (no delimiter) collects: every
descendant file of every entry whose name matches. -/
def expectedContents (fdPath : List String) (name : String) (entries : List (String × FSNode)) : List ListItem :=
  (entries.filter (fun e => hasPrefixStr e.1 name)).flatMap
    (fun e => (descFilesEntry e.1 e.2).map (contentItemOf fdPath))

/-- Count of path separators in a string. -/
def countSlash (s : String) : Nat :=
  s.data.count '/'

/-- A filesystem behaviour violating `TouchObject`'s implicit
assumption: stat keeps reporting ENOENT although create succeeds (a
remote whose just-created file never becomes visible). -/
def badTouchOps : TouchOps Unit where
  stat := fun _ _ => .error .enoent
  create := fun _ _ => .ok ()
  chtimes := fun s _ _ => (s, .ok ())
  storeMeta := fun s _ _ => s

/-- A trivial well-behaved filesystem for `TouchObject`: stat always
succeeds. -/
def okTouchOps : TouchOps Unit where
  stat := fun _ _ => .ok ()
  create := fun _ _ => .ok ()
  chtimes := fun s _ _ => (s, .ok ())
  storeMeta := fun s _ _ => s

/-! ## Helper lemmas about the tree model -/

/-- Finding the child an update just wrote. -/
theorem findChild_setChild_self (ch : List (String × FSNode)) (s : String) (c : FSNode) :
    findChild (setChild ch s c) s = some c := by
  induction ch with
  | nil => simp [setChild, findChild]
  | cons hd tl ih =>
    obtain ⟨n, c₀⟩ := hd
    by_cases hn : n = s
    · simp [setChild, findChild, hn]
    · simp [setChild, findChild, hn, ih]

/-- Updating one name leaves the resolution of every other alone. -/
theorem findChild_setChild_other (ch : List (String × FSNode)) {s x : String} (c : FSNode) (h : x ≠ s) :
    findChild (setChild ch s c) x = findChild ch x := by
  have hsx : ¬ s = x := fun hc => h hc.symm
  induction ch with
  | nil => simp [setChild, findChild, hsx]
  | cons hd tl ih =>
    obtain ⟨n, c₀⟩ := hd
    by_cases hn : n = s
    · subst hn
      simp [setChild, findChild, hsx]
    · simp [setChild, findChild, hn, ih]

/-- A name that is key-free resolves to nothing. -/
theorem keyFree_findChild_none {ch : List (String × FSNode)} {s : String} (h : keyFree s ch = true) :
    findChild ch s = none := by
  induction ch with
  | nil => simp [findChild]
  | cons hd tl ih =>
    obtain ⟨n, c₀⟩ := hd
    by_cases hn : n = s
    · simp [keyFree, hn] at h
    · simp [keyFree, hn] at h
      simp [findChild, hn, ih h]

/-- Removing a name from a well-formed entry list makes it resolve to
nothing (well-formedness rules out a shadowing duplicate). -/
theorem findChild_removeChild_self {ch : List (String × FSNode)} {s : String} (h : wfChildren ch = true) :
    findChild (removeChild ch s) s = none := by
  induction ch with
  | nil => simp [removeChild, findChild]
  | cons hd tl ih =>
    obtain ⟨n, c₀⟩ := hd
    simp only [wfChildren, Bool.and_eq_true] at h
    by_cases hn : n = s
    · subst hn
      simpa [removeChild] using keyFree_findChild_none h.1.1.2
    · simp [removeChild, findChild, hn, ih h.2]

/-- Removing one name leaves the resolution of every other alone. -/
theorem findChild_removeChild_other (ch : List (String × FSNode)) {s x : String} (h : x ≠ s) :
    findChild (removeChild ch s) x = findChild ch x := by
  have hsx : ¬ s = x := fun hc => h hc.symm
  induction ch with
  | nil => simp [removeChild, findChild]
  | cons hd tl ih =>
    obtain ⟨n, c₀⟩ := hd
    by_cases hn : n = s
    · subst hn
      simp [removeChild, findChild, hsx]
    · simp [removeChild, findChild, hn, ih]

/-- A child found in a well-formed entry list is well-formed. -/
theorem findChild_wf {ch : List (String × FSNode)} {s : String} {c : FSNode}
    (hwf : wfChildren ch = true) (h : findChild ch s = some c) : c.wf = true := by
  induction ch with
  | nil => simp [findChild] at h
  | cons hd tl ih =>
    obtain ⟨n, c₀⟩ := hd
    simp only [wfChildren, Bool.and_eq_true] at hwf
    by_cases hn : n = s
    · simp [findChild, hn] at h
      exact h ▸ hwf.1.2
    · simp [findChild, hn] at h
      exact ih hwf.2 h

/-- The name of a child found in a well-formed entry list is a valid
child name. -/
theorem findChild_nameOk {ch : List (String × FSNode)} {s : String} {c : FSNode}
    (hwf : wfChildren ch = true) (h : findChild ch s = some c) : childNameOk s = true := by
  induction ch with
  | nil => simp [findChild] at h
  | cons hd tl ih =>
    obtain ⟨n, c₀⟩ := hd
    simp only [wfChildren, Bool.and_eq_true] at hwf
    by_cases hn : n = s
    · exact hn ▸ hwf.1.1.1
    · simp [findChild, hn] at h
      exact ih hwf.2 h

/-- Key-freeness survives updating a different name. -/
theorem keyFree_setChild {ch : List (String × FSNode)} {n s : String} (c : FSNode)
    (hne : n ≠ s) (h : keyFree n ch = true) : keyFree n (setChild ch s c) = true := by
  have hsn : ¬ s = n := fun hc => hne hc.symm
  induction ch with
  | nil => simp [setChild, keyFree, hsn]
  | cons hd tl ih =>
    obtain ⟨m, c₀⟩ := hd
    by_cases hmn : m = n
    · simp [keyFree, hmn] at h
    · simp only [keyFree, if_neg hmn] at h
      by_cases hm : m = s
      · subst hm
        simp [setChild, keyFree, hmn, h]
      · simp only [setChild, if_neg hm, keyFree, if_neg hmn]
        exact ih h

/-- Key-freeness survives removing a name. -/
theorem keyFree_removeChild {ch : List (String × FSNode)} {n s : String}
    (h : keyFree n ch = true) : keyFree n (removeChild ch s) = true := by
  induction ch with
  | nil => simpa [removeChild] using h
  | cons hd tl ih =>
    obtain ⟨m, c₀⟩ := hd
    by_cases hmn : m = n
    · simp [keyFree, hmn] at h
    · simp only [keyFree, if_neg hmn] at h
      by_cases hm : m = s
      · simpa [removeChild, hm] using h
      · simp only [removeChild, if_neg hm, keyFree, if_neg hmn]
        exact ih h

/-- Well-formedness of an entry list survives an update with a
well-formed node under a valid name. -/
theorem wfChildren_setChild {ch : List (String × FSNode)} {s : String} {c : FSNode}
    (hwf : wfChildren ch = true) (hc : c.wf = true) (hs : childNameOk s = true) :
    wfChildren (setChild ch s c) = true := by
  induction ch with
  | nil => simp [setChild, wfChildren, keyFree, hs, hc]
  | cons hd tl ih =>
    obtain ⟨n, c₀⟩ := hd
    simp only [wfChildren, Bool.and_eq_true] at hwf
    by_cases hn : n = s
    · subst hn
      simp only [setChild, if_pos rfl, wfChildren, Bool.and_eq_true]
      exact ⟨⟨⟨hwf.1.1.1, hwf.1.1.2⟩, hc⟩, hwf.2⟩
    · simp only [setChild, if_neg hn, wfChildren, Bool.and_eq_true]
      exact ⟨⟨⟨hwf.1.1.1, keyFree_setChild c hn hwf.1.1.2⟩, hwf.1.2⟩, ih hwf.2⟩

/-- Well-formedness of an entry list survives removing a name. -/
theorem wfChildren_removeChild {ch : List (String × FSNode)} {s : String}
    (hwf : wfChildren ch = true) : wfChildren (removeChild ch s) = true := by
  induction ch with
  | nil => simp [removeChild, wfChildren]
  | cons hd tl ih =>
    obtain ⟨n, c₀⟩ := hd
    simp only [wfChildren, Bool.and_eq_true] at hwf
    by_cases hn : n = s
    · simpa [removeChild, hn] using hwf.2
    · simp only [removeChild, if_neg hn, wfChildren, Bool.and_eq_true]
      exact ⟨⟨⟨hwf.1.1.1, keyFree_removeChild hwf.1.1.2⟩, hwf.1.2⟩, ih hwf.2⟩

/-- Resolution distributes over path concatenation. -/
theorem lookup_append (root : FSNode) (p q : List String) :
    root.lookup (p ++ q) = (root.lookup p).bind (fun n => n.lookup q) := by
  induction p generalizing root with
  | nil => simp [FSNode.lookup]
  | cons s rest ih =>
    cases root with
    | file c m => simp [FSNode.lookup]
    | dir m ch =>
      simp only [List.cons_append, FSNode.lookup]
      cases findChild ch s with
      | none => simp
      | some c => simpa using ih c

/-- Appending on the left of a string is injective. -/
theorem string_append_left_cancel {a b c : String} (h : a ++ b = a ++ c) : b = c := by
  apply String.ext
  apply @List.append_cancel_left _ a.data
  rw [← String.data_append, ← String.data_append, h]

/-- The bearer token of the view `setAuthForWebDAV` hands out for a
WebDAV remote is the request's access key, whatever the cache holds. -/
theorem setAuthForWebDAV_bearer (remoteName : String) (st : IFState) (k : String) :
    ((setAuthForWebDAV true remoteName st k).2).bearer = k := by
  unfold setAuthForWebDAV vfsNew
  cases lookupCache st.cache (remoteName ++ k) <;> rfl

/-- Lookup finds the entry an update just wrote. -/
theorem lookupCache_updateCache_self (c : List (String × VFSView)) (k : String) (v : VFSView) :
    lookupCache (updateCache c k v) k = some v := by
  induction c with
  | nil => simp [updateCache, lookupCache]
  | cons hd tl ih =>
    obtain ⟨n, v₀⟩ := hd
    by_cases hn : n = k
    · simp [updateCache, lookupCache, hn]
    · simp [updateCache, lookupCache, hn, ih]

/-- Updating one key leaves every other key's entry alone. -/
theorem lookupCache_updateCache_other (c : List (String × VFSView)) {k k' : String} (v : VFSView) (hne : k' ≠ k) :
    lookupCache (updateCache c k' v) k = lookupCache c k := by
  induction c with
  | nil => simp [updateCache, lookupCache, hne]
  | cons hd tl ih =>
    obtain ⟨n, v₀⟩ := hd
    by_cases hn : n = k'
    · subst hn
      simp [updateCache, lookupCache, hne]
    · simp [updateCache, lookupCache, hn, ih]

/-- Writing back the value a key already holds is a no-op. -/
theorem updateCache_lookup_self {c : List (String × VFSView)} {k : String} {v : VFSView} (h : lookupCache c k = some v) :
    updateCache c k v = c := by
  induction c with
  | nil => simp [lookupCache] at h
  | cons hd tl ih =>
    obtain ⟨n, v₀⟩ := hd
    by_cases hn : n = k
    · subst hn
      simp [lookupCache] at h
      simp [updateCache, h]
    · simp [lookupCache, hn] at h
      simp [updateCache, hn, ih h]

/-- Reading the just-written second component of `serveRequest`. -/
theorem serveRequest_snd (remoteName : String) (st : IFState) (k : String) :
    (serveRequest remoteName st k).2 =
      (setAuthForWebDAV true remoteName st k).2.authHeader := rfl

/-- A cache hit whose entry already carries the right bearer makes
`setAuthForWebDAV` a pure read. -/
theorem setAuthForWebDAV_hit {remoteName : String} {st : IFState} {K : String} {v : VFSView}
    (h : lookupCache st.cache (remoteName ++ K) = some v) (hb : v.bearer = K) :
    setAuthForWebDAV true remoteName st K = (st, v) := by
  cases st with
  | mk c =>
    have hv : ({ v with bearer := K } : VFSView) = v := by
      cases v
      simp_all
    simp [setAuthForWebDAV, vfsNew, h, hv, updateCache_lookup_self h]

/-- The view `setAuthForWebDAV` registers is found in the resulting
cache under the key's config name. -/
theorem setAuthForWebDAV_registers (remoteName : String) (st : IFState) (K : String) :
    lookupCache (setAuthForWebDAV true remoteName st K).1.cache (remoteName ++ K) =
      some (setAuthForWebDAV true remoteName st K).2 := by
  cases hc : lookupCache st.cache (remoteName ++ K) <;>
    simp [setAuthForWebDAV, vfsNew, hc, lookupCache_updateCache_self]

/-- Serving one access key never touches the cache entry of a
different config name. -/
theorem setAuthForWebDAV_frame {remoteName K' : String} (st : IFState) {cfg : String}
    (hne : remoteName ++ K' ≠ cfg) :
    lookupCache (setAuthForWebDAV true remoteName st K').1.cache cfg =
      lookupCache st.cache cfg := by
  cases hc : lookupCache st.cache (remoteName ++ K') <;>
    simp [setAuthForWebDAV, vfsNew, hc, lookupCache_updateCache_other _ _ hne]

/-- A just-installed node resolves at its path. -/
theorem createAt_lookup {root root' node : FSNode} {p : List String}
    (h : createAt root p node = .ok root') : root'.lookup p = some node := by
  induction p generalizing root root' with
  | nil => simp [createAt] at h
  | cons s rest ih =>
    cases root with
    | file c m => simp [createAt] at h
    | dir m ch =>
      cases rest with
      | nil =>
        simp only [createAt, Except.ok.injEq] at h
        subst h
        simp [FSNode.lookup, findChild_setChild_self]
      | cons t rest' =>
        simp only [createAt] at h
        cases hf : findChild ch s with
        | none => rw [hf] at h; simp at h
        | some c =>
          rw [hf] at h
          try simp only [] at h
          cases hc : createAt c (t :: rest') node with
          | error e => rw [hc] at h; simp at h
          | ok c' =>
            rw [hc] at h
            try simp only [] at h
            simp only [Except.ok.injEq] at h
            subst h
            simp [FSNode.lookup, findChild_setChild_self, ih hc]

/-- Installing a well-formed node under a clean path keeps the tree
well-formed. -/
theorem createAt_wf {root root' node : FSNode} {p : List String}
    (hwf : root.wf = true) (hnode : node.wf = true)
    (hseg : ∀ s ∈ p, childNameOk s = true)
    (h : createAt root p node = .ok root') : root'.wf = true := by
  induction p generalizing root root' with
  | nil => simp [createAt] at h
  | cons s rest ih =>
    cases root with
    | file c m => simp [createAt] at h
    | dir m ch =>
      have hch : wfChildren ch = true := by simpa [FSNode.wf] using hwf
      cases rest with
      | nil =>
        simp only [createAt, Except.ok.injEq] at h
        subst h
        simpa [FSNode.wf] using wfChildren_setChild hch hnode (hseg s (by simp))
      | cons t rest' =>
        simp only [createAt] at h
        cases hf : findChild ch s with
        | none => rw [hf] at h; simp at h
        | some c =>
          rw [hf] at h
          try simp only [] at h
          cases hc : createAt c (t :: rest') node with
          | error e => rw [hc] at h; simp at h
          | ok c' =>
            rw [hc] at h
            try simp only [] at h
            simp only [Except.ok.injEq] at h
            subst h
            have hc'wf : c'.wf = true :=
              ih (findChild_wf hch hf) (fun x hx => hseg x (List.mem_cons_of_mem _ hx)) hc
            simpa [FSNode.wf] using wfChildren_setChild hch hc'wf (hseg s (by simp))

/-- Removing a path that does not resolve fails with the not-exist
error (the case `deleteObjectLocked` swallows). -/
theorem removeAt_of_lookup_none {root : FSNode} {p : List String}
    (h : root.lookup p = none) : removeAt root p = .error .enoent := by
  induction p generalizing root with
  | nil => simp [FSNode.lookup] at h
  | cons s rest ih =>
    cases root with
    | file c m => cases rest <;> simp [removeAt]
    | dir m ch =>
      simp only [FSNode.lookup] at h
      cases hf : findChild ch s with
      | none => cases rest <;> simp [removeAt, hf]
      | some c =>
        rw [hf] at h
        try simp only [] at h
        cases rest with
        | nil => simp [FSNode.lookup] at h
        | cons t rest' => simp [removeAt, hf, ih h]

/-- Removal keeps the tree well-formed. -/
theorem removeAt_wf {root root' : FSNode} {p : List String}
    (hwf : root.wf = true) (h : removeAt root p = .ok root') : root'.wf = true := by
  induction p generalizing root root' with
  | nil => simp [removeAt] at h
  | cons s rest ih =>
    cases root with
    | file c m => cases rest <;> simp [removeAt] at h
    | dir m ch =>
      have hch : wfChildren ch = true := by simpa [FSNode.wf] using hwf
      cases rest with
      | nil =>
        simp only [removeAt] at h
        cases hf : findChild ch s with
        | none => rw [hf] at h; simp at h
        | some c =>
          rw [hf] at h
          try simp only [] at h
          have hsub : root' = FSNode.dir m (removeChild ch s) := by
            cases c with
            | file cc mm => simpa using h.symm
            | dir mm cs =>
              cases cs with
              | nil => simpa using h.symm
              | cons e es => simp at h
          subst hsub
          simpa [FSNode.wf] using wfChildren_removeChild hch
      | cons t rest' =>
        simp only [removeAt] at h
        cases hf : findChild ch s with
        | none => rw [hf] at h; simp at h
        | some c =>
          rw [hf] at h
          try simp only [] at h
          cases hc : removeAt c (t :: rest') with
          | error e => rw [hc] at h; simp at h
          | ok c' =>
            rw [hc] at h
            try simp only [] at h
            simp only [Except.ok.injEq] at h
            subst h
            simpa [FSNode.wf] using
              wfChildren_setChild hch (ih (findChild_wf hch hf) hc) (findChild_nameOk hch hf)

/-- After a successful removal the removed path no longer resolves. -/
theorem removeAt_lookup_none {root root' : FSNode} {p : List String}
    (hwf : root.wf = true) (h : removeAt root p = .ok root') : root'.lookup p = none := by
  induction p generalizing root root' with
  | nil => simp [removeAt] at h
  | cons s rest ih =>
    cases root with
    | file c m => cases rest <;> simp [removeAt] at h
    | dir m ch =>
      have hch : wfChildren ch = true := by simpa [FSNode.wf] using hwf
      cases rest with
      | nil =>
        simp only [removeAt] at h
        cases hf : findChild ch s with
        | none => rw [hf] at h; simp at h
        | some c =>
          rw [hf] at h
          try simp only [] at h
          have hsub : root' = FSNode.dir m (removeChild ch s) := by
            cases c with
            | file cc mm => simpa using h.symm
            | dir mm cs =>
              cases cs with
              | nil => simpa using h.symm
              | cons e es => simp at h
          subst hsub
          simp [FSNode.lookup, findChild_removeChild_self hch]
      | cons t rest' =>
        simp only [removeAt] at h
        cases hf : findChild ch s with
        | none => rw [hf] at h; simp at h
        | some c =>
          rw [hf] at h
          try simp only [] at h
          cases hc : removeAt c (t :: rest') with
          | error e => rw [hc] at h; simp at h
          | ok c' =>
            rw [hc] at h
            try simp only [] at h
            simp only [Except.ok.injEq] at h
            subst h
            simp [FSNode.lookup, findChild_setChild_self, ih (findChild_wf hch hf) hc]

/-- Removal never makes a path resolve that did not resolve before. -/
theorem removeAt_lookup_mono {root root' : FSNode} {p : List String}
    (hwf : root.wf = true) (h : removeAt root p = .ok root') :
    ∀ q, root.lookup q = none → root'.lookup q = none := by
  induction p generalizing root root' with
  | nil => simp [removeAt] at h
  | cons s rest ih =>
    cases root with
    | file c m => cases rest <;> simp [removeAt] at h
    | dir m ch =>
      have hch : wfChildren ch = true := by simpa [FSNode.wf] using hwf
      intro q hq
      cases q with
      | nil => simp [FSNode.lookup] at hq
      | cons x q' =>
        cases rest with
        | nil =>
          simp only [removeAt] at h
          cases hf : findChild ch s with
          | none => rw [hf] at h; simp at h
          | some c =>
            rw [hf] at h
            try simp only [] at h
            have hsub : root' = FSNode.dir m (removeChild ch s) := by
              cases c with
              | file cc mm => simpa using h.symm
              | dir mm cs =>
                cases cs with
                | nil => simpa using h.symm
                | cons e es => simp at h
            subst hsub
            by_cases hx : x = s
            · subst hx
              simp [FSNode.lookup, findChild_removeChild_self hch]
            · simp only [FSNode.lookup] at hq ⊢
              rw [findChild_removeChild_other ch hx]
              exact hq
        | cons t rest' =>
          simp only [removeAt] at h
          cases hf : findChild ch s with
          | none => rw [hf] at h; simp at h
          | some c =>
            rw [hf] at h
            try simp only [] at h
            cases hc : removeAt c (t :: rest') with
            | error e => rw [hc] at h; simp at h
            | ok c' =>
              rw [hc] at h
              try simp only [] at h
              simp only [Except.ok.injEq] at h
              subst h
              by_cases hx : x = s
              · subst hx
                simp only [FSNode.lookup] at hq ⊢
                rw [findChild_setChild_self]
                rw [hf] at hq
                exact ih (findChild_wf hch hf) hc q' hq
              · simp only [FSNode.lookup] at hq ⊢
                rw [findChild_setChild_other ch _ hx]
                exact hq

/-- Removing a path at least two segments deep keeps every top-level
name resolvable. -/
theorem removeAt_lookup_head {root root' : FSNode} {s t : String} {rest : List String}
    (h : removeAt root (s :: t :: rest) = .ok root') (b : String)
    (hb : (root.lookup [b]).isSome = true) : (root'.lookup [b]).isSome = true := by
  cases root with
  | file c m => simp [removeAt] at h
  | dir m ch =>
    simp only [removeAt] at h
    cases hf : findChild ch s with
    | none => rw [hf] at h; simp at h
    | some c =>
      rw [hf] at h
      try simp only [] at h
      cases hc : removeAt c (t :: rest) with
      | error e => rw [hc] at h; simp at h
      | ok c' =>
        rw [hc] at h
        try simp only [] at h
        simp only [Except.ok.injEq] at h
        subst h
        by_cases hx : b = s
        · subst hx
          simp [FSNode.lookup, findChild_setChild_self]
        · simp only [FSNode.lookup] at hb ⊢
          rw [findChild_setChild_other ch _ hx]
          exact hb

/-- Removing a path that resolves to a file always succeeds. -/
theorem removeAt_ok_of_file {root : FSNode} {s : String} {rest : List String} {c : List Nat} {mt : Int}
    (h : root.lookup (s :: rest) = some (.file c mt)) :
    ∃ root', removeAt root (s :: rest) = .ok root' := by
  induction rest generalizing root s with
  | nil =>
    cases root with
    | file cc mm => simp [FSNode.lookup] at h
    | dir m ch =>
      simp only [FSNode.lookup] at h
      cases hf : findChild ch s with
      | none => rw [hf] at h; simp at h
      | some cnode =>
        rw [hf] at h
        simp only [FSNode.lookup, Option.some.injEq] at h
        subst h
        exact ⟨.dir m (removeChild ch s), by simp [removeAt, hf]⟩
  | cons t rest' ih =>
    cases root with
    | file cc mm => simp [FSNode.lookup] at h
    | dir m ch =>
      simp only [FSNode.lookup] at h
      cases hf : findChild ch s with
      | none => rw [hf] at h; simp at h
      | some cnode =>
        rw [hf] at h
        simp only [] at h
        obtain ⟨c', hc⟩ := ih h
        exact ⟨.dir m (setChild ch s c'), by simp [removeAt, hf, hc]⟩

/-- Unfolding file contents below one directory level. -/
theorem fileContentsAt_dir_cons (m : Int) (ch : List (String × FSNode)) (x : String) (q : List String) :
    fileContentsAt (.dir m ch) (x :: q) =
      match findChild ch x with
      | none => none
      | some c => fileContentsAt c q := by
  simp only [fileContentsAt, FSNode.lookup]
  cases findChild ch x <;> rfl

/-- Changing modification times never changes any file's contents,
anywhere in the tree. -/
theorem chtimesAt_contents {root root' : FSNode} {p : List String} {ti : Int}
    (h : chtimesAt root p ti = .ok root') :
    ∀ q, fileContentsAt root' q = fileContentsAt root q := by
  induction p generalizing root root' with
  | nil => simp [chtimesAt] at h
  | cons s rest ih =>
    cases root with
    | file c m => cases rest <;> simp [chtimesAt] at h
    | dir m ch =>
      cases rest with
      | nil =>
        simp only [chtimesAt] at h
        cases hf : findChild ch s with
        | none => rw [hf] at h; simp at h
        | some c =>
          rw [hf] at h
          try simp only [] at h
          obtain ⟨c', hsub, hsame⟩ :
              ∃ c', root' = FSNode.dir m (setChild ch s c') ∧
                ∀ q, fileContentsAt c' q = fileContentsAt c q := by
            cases c with
            | file cc mm =>
              refine ⟨.file cc ti, by simpa using h.symm, fun q => ?_⟩
              cases q <;> simp [fileContentsAt, FSNode.lookup]
            | dir mm cs =>
              refine ⟨.dir ti cs, by simpa using h.symm, fun q => ?_⟩
              cases q with
              | nil => simp [fileContentsAt, FSNode.lookup]
              | cons y q' => rw [fileContentsAt_dir_cons, fileContentsAt_dir_cons]
          subst hsub
          intro q
          cases q with
          | nil => simp [fileContentsAt, FSNode.lookup]
          | cons x q' =>
            rw [fileContentsAt_dir_cons, fileContentsAt_dir_cons]
            by_cases hx : x = s
            · subst hx
              rw [findChild_setChild_self, hf]
              exact hsame q'
            · rw [findChild_setChild_other ch _ hx]
      | cons t rest' =>
        simp only [chtimesAt] at h
        cases hf : findChild ch s with
        | none => rw [hf] at h; simp at h
        | some c =>
          rw [hf] at h
          try simp only [] at h
          cases hc : chtimesAt c (t :: rest') ti with
          | error e => rw [hc] at h; simp at h
          | ok c' =>
            rw [hc] at h
            try simp only [] at h
            simp only [Except.ok.injEq] at h
            subst h
            intro q
            cases q with
            | nil => simp [fileContentsAt, FSNode.lookup]
            | cons x q' =>
              rw [fileContentsAt_dir_cons, fileContentsAt_dir_cons]
              by_cases hx : x = s
              · subst hx
                rw [findChild_setChild_self, hf]
                exact ih hc q'
              · rw [findChild_setChild_other ch _ hx]

/-! ## Helper lemmas about the listing walk -/

/-- Every string has the empty prefix. -/
theorem hasPrefixStr_empty (s : String) : hasPrefixStr s "" = true := by
  simp [hasPrefixStr]

/-- A key-free name is bound by no member. -/
theorem keyFree_not_mem {ch : List (String × FSNode)} {s : String} {c : FSNode}
    (h : keyFree s ch = true) : (s, c) ∉ ch := by
  induction ch with
  | nil => simp
  | cons hd tl ih =>
    obtain ⟨n, c₀⟩ := hd
    by_cases hn : n = s
    · simp [keyFree, hn] at h
    · simp only [keyFree, if_neg hn] at h
      simp only [List.mem_cons, not_or]
      exact ⟨fun hc => hn (congrArg Prod.fst hc).symm, ih h⟩

/-- In a well-formed entry list, membership determines resolution. -/
theorem findChild_of_mem {ch : List (String × FSNode)} {e : String × FSNode}
    (hwf : wfChildren ch = true) (h : e ∈ ch) : findChild ch e.1 = some e.2 := by
  induction ch with
  | nil => simp at h
  | cons hd tl ih =>
    obtain ⟨n, c₀⟩ := hd
    simp only [wfChildren, Bool.and_eq_true] at hwf
    rcases List.mem_cons.mp h with heq | htl
    · subst heq
      simp [findChild]
    · by_cases hn : n = e.1
      · exfalso
        have hkf : keyFree e.1 tl = true := by rw [← hn]; exact hwf.1.1.2
        obtain ⟨o, c⟩ := e
        exact keyFree_not_mem hkf htl
      · simp only [findChild, if_neg hn]
        exact ih hwf.2 htl

/-- A member's depth is bounded by the entry list's depth. -/
theorem depthNode_le_depthChildren {ch : List (String × FSNode)} {e : String × FSNode}
    (h : e ∈ ch) : depthNode e.2 ≤ depthChildren ch := by
  induction ch with
  | nil => simp at h
  | cons hd tl ih =>
    rcases List.mem_cons.mp h with heq | htl
    · subst heq
      simp [depthChildren, Nat.le_max_left]
    · calc depthNode e.2 ≤ depthChildren tl := ih htl
        _ ≤ depthChildren (hd :: tl) := by
          obtain ⟨n, c⟩ := hd
          simp [depthChildren, Nat.le_max_right]

/-- The descendant files below an entry list, as the flat union over
its entries. -/
theorem descFilesChildren_flatMap (cs : List (String × FSNode)) :
    descFilesChildren cs = cs.flatMap (fun e => descFilesEntry e.1 e.2) := by
  induction cs with
  | nil => simp [descFilesChildren]
  | cons hd tl ih =>
    obtain ⟨n, c⟩ := hd
    simp [descFilesChildren, ih]

/-- Re-rooting the content items of a directory entry's descendants:
walking from `fdPath` into the entry is walking from `fdPath/entry`. -/
theorem descFilesEntry_dir_map (fdPath : List String) (o : String) (mc : Int) (cs : List (String × FSNode)) :
    (descFilesEntry o (.dir mc cs)).map (contentItemOf fdPath) =
      (descFilesChildren cs).map (contentItemOf (fdPath ++ [o])) := by
  simp only [descFilesEntry, List.map_map]
  apply List.map_congr_left
  intro it _
  simp only [Function.comp, contentItemOf]
  rw [List.append_cons]

/-- A walk whose starting path does not resolve reports the engine's
no-such-key error (for any positive fuel). -/
theorem entryListR_err {fuel : Nat} {root : FSNode} {bucket : String} {fdPath : List String}
    {name : String} {addPrefix : Bool}
    (h : root.lookup (bucket :: fdPath) = none) (hf : fuel ≠ 0) :
    entryListR fuel root bucket fdPath name addPrefix = .error .errNoSuchKey := by
  cases fuel with
  | zero => exact absurd rfl hf
  | succ f => simp [entryListR, getDirEntries, h]

/-- With grouping on, the loop emits exactly one item per matching
entry — common prefixes for directories, contents for files — and never
recurses (its result does not depend on the fuel). -/
theorem entryListLoop_top (fuel : Nat) (root : FSNode) (bucket : String) (fdPath : List String)
    (name : String) (entries : List (String × FSNode)) :
    entryListLoop fuel root bucket fdPath name true entries =
      .ok (expectedTopLevel fdPath name entries) := by
  induction entries with
  | nil => simp [entryListLoop, expectedTopLevel]
  | cons hd tl ih =>
    obtain ⟨o, node⟩ := hd
    cases hpre : hasPrefixStr o name with
    | true =>
      cases node with
      | file cc mm => simp [entryListLoop, hpre, ih, expectedTopLevel]
      | dir mc cs => simp [entryListLoop, hpre, ih, expectedTopLevel]
    | false => cases node <;> simp [entryListLoop, hpre, ih, expectedTopLevel]

/-- Splitting the expected recursive collection at a matching
directory entry. -/
theorem expectedContents_cons_dir (fdPath : List String) (name : String) (o : String) (mc : Int)
    (cs rest : List (String × FSNode)) (hpre : hasPrefixStr o name = true) :
    expectedContents fdPath name ((o, .dir mc cs) :: rest) =
      expectedContents (fdPath ++ [o]) "" cs ++ expectedContents fdPath name rest := by
  simp only [expectedContents, List.filter_cons, hpre, if_pos, List.flatMap_cons,
    descFilesEntry_dir_map]
  congr 1
  have hfilter : cs.filter (fun e => hasPrefixStr e.1 "") = cs :=
    List.filter_eq_self.mpr (fun e _ => hasPrefixStr_empty e.1)
  rw [hfilter, descFilesChildren_flatMap, List.map_flatMap]

mutual

/-- Without a delimiter the walk starting at a resolvable directory
with enough fuel collects exactly the matching descendant files. -/
theorem entryListR_complete (fuel : Nat) (root : FSNode) (bucket : String) (fdPath : List String)
    (name : String) (m : Int) (ch : List (String × FSNode))
    (hlook : root.lookup (bucket :: fdPath) = some (.dir m ch))
    (hwf : wfChildren ch = true)
    (hfuel : depthChildren ch < fuel) :
    entryListR fuel root bucket fdPath name false =
      .ok (expectedContents fdPath name ch) := by
  match fuel, hfuel with
  | f + 1, hfuel =>
    simp only [entryListR, getDirEntries, hlook]
    exact entryListLoop_complete f root bucket fdPath name m ch ch hlook hwf
      (fun e he => findChild_of_mem hwf he)
      (fun e he => Nat.le_of_lt_succ (Nat.lt_of_le_of_lt (depthNode_le_depthChildren he) hfuel))
termination_by (fuel, 0, 0)

/-- The loop of the recursive walk, over any batch of entries resolved
from the directory just read. -/
theorem entryListLoop_complete (fuel : Nat) (root : FSNode) (bucket : String) (fdPath : List String)
    (name : String) (m : Int) (ch : List (String × FSNode)) (entries : List (String × FSNode))
    (hlook : root.lookup (bucket :: fdPath) = some (.dir m ch))
    (hwf : wfChildren ch = true)
    (hsub : ∀ e ∈ entries, findChild ch e.1 = some e.2)
    (hdep : ∀ e ∈ entries, depthNode e.2 ≤ fuel) :
    entryListLoop fuel root bucket fdPath name false entries =
      .ok (expectedContents fdPath name entries) := by
  match entries with
  | [] => simp [entryListLoop, expectedContents]
  | (o, node) :: rest =>
    have hrest := entryListLoop_complete fuel root bucket fdPath name m ch rest hlook hwf
      (fun e he => hsub e (List.mem_cons_of_mem _ he))
      (fun e he => hdep e (List.mem_cons_of_mem _ he))
    cases hpre : hasPrefixStr o name with
    | true =>
      cases node with
      | file cc mm =>
        simp [entryListLoop, hpre, hrest, expectedContents, descFilesEntry,
          contentItemOf, joinSeg]
      | dir mc cs =>
        have hmem : ((o, FSNode.dir mc cs) : String × FSNode) ∈ (o, FSNode.dir mc cs) :: rest :=
          List.mem_cons_self _ _
        have hfc : findChild ch o = some (.dir mc cs) := hsub _ hmem
        have hlook' : root.lookup (bucket :: (fdPath ++ [o])) = some (.dir mc cs) := by
          have hps : bucket :: (fdPath ++ [o]) = (bucket :: fdPath) ++ [o] := by simp
          rw [hps, lookup_append, hlook]
          simp [FSNode.lookup, hfc]
        have hwf' : wfChildren cs = true := by
          have := findChild_wf hwf hfc
          simpa [FSNode.wf] using this
        have hfuel' : depthChildren cs < fuel := by
          have := hdep _ hmem
          simp only [depthNode] at this
          omega
        have hsubtree := entryListR_complete fuel root bucket (fdPath ++ [o]) "" mc cs
          hlook' hwf' hfuel'
        rw [expectedContents_cons_dir fdPath name o mc cs rest hpre]
        simp [entryListLoop, hpre, hsubtree, hrest]
    | false =>
      cases node <;> simp [entryListLoop, hpre, hrest, expectedContents]
termination_by (fuel, 1, entries.length)

end

/-- The best-effort directory cleanup after a delete only ever removes
empty directories strictly below the top level: it keeps the tree
well-formed, keeps every unresolvable path unresolvable, and keeps
every top-level name (in particular the bucket) resolvable.  Stated
with an explicit bound `n` on the path length for the induction. -/
theorem rmdirRecursive_invariants (n : Nat) :
    ∀ (fp : List String), fp.length ≤ n → ∀ (fs : FSNode), fs.wf = true →
      (rmdirRecursive fs fp).wf = true ∧
      (∀ q, fs.lookup q = none → (rmdirRecursive fs fp).lookup q = none) ∧
      (∀ b, (fs.lookup [b]).isSome = true → ((rmdirRecursive fs fp).lookup [b]).isSome = true) := by
  induction n with
  | zero =>
    intro fp hlen fs hwf
    have hfp : fp = [] := List.eq_nil_of_length_eq_zero (Nat.le_zero.mp hlen)
    subst hfp
    rw [rmdirRecursive]
    simp only [List.dropLast_nil, List.length_nil, Nat.zero_le, dif_pos]
    exact ⟨hwf, fun q h => h, fun b h => h⟩
  | succ n ih =>
    intro fp hlen fs hwf
    rw [rmdirRecursive]
    by_cases hc : fp.dropLast.length ≤ 1
    · rw [dif_pos hc]
      exact ⟨hwf, fun q h => h, fun b h => h⟩
    · rw [dif_neg hc]
      cases hl : fs.lookup fp.dropLast with
      | none => exact ⟨hwf, fun q h => h, fun b h => h⟩
      | some nd =>
        cases nd with
        | file cc mm => exact ⟨hwf, fun q h => h, fun b h => h⟩
        | dir mm cs =>
          cases cs with
          | cons e es => exact ⟨hwf, fun q h => h, fun b h => h⟩
          | nil =>
            cases hr : removeAt fs fp.dropLast with
            | error e => exact ⟨hwf, fun q h => h, fun b h => h⟩
            | ok fs' =>
              have hwf' : fs'.wf = true := removeAt_wf hwf hr
              have hlen' : fp.dropLast.length ≤ n := by
                have hdl := List.length_dropLast fp
                omega
              obtain ⟨h1, h2, h3⟩ := ih fp.dropLast hlen' fs' hwf'
              refine ⟨h1, fun q hq => h2 q (removeAt_lookup_mono hwf hr q hq), fun b hb => ?_⟩
              obtain ⟨s, t, rest, hsh⟩ : ∃ s t rest, fp.dropLast = s :: t :: rest := by
                cases hdl : fp.dropLast with
                | nil => rw [hdl] at hc; simp at hc
                | cons a l =>
                  cases l with
                  | nil => rw [hdl] at hc; simp at hc
                  | cons a' l' => exact ⟨a, a', l', rfl⟩
              rw [hsh] at hr
              exact h3 b (removeAt_lookup_head hr b hb)

/-! ## Helper lemmas about separators and encoding -/

/-- Hexadecimal digit characters are never the path separator. -/
theorem hexDigit_ne_slash (n : Nat) : hexDigit n ≠ '/' := by
  rcases Nat.lt_or_ge n 16 with h | h
  · interval_cases n <;> decide
  · have hlen : hexDigits.length ≤ n := by
      simp only [hexDigits, List.length_cons, List.length_nil]
      omega
    rw [hexDigit, List.getD_eq_default _ _ hlen]
    decide

/-- Lists whose pieces are slash-free concatenate to something
slash-free. -/
theorem count_slash_flatMap_zero {l : List Nat} {f : Nat → List Char}
    (h : ∀ b ∈ l, (f b).count '/' = 0) : (l.flatMap f).count '/' = 0 := by
  induction l with
  | nil => simp
  | cons b bs ih =>
    rw [List.flatMap_cons, List.count_append]
    rw [h b (by simp), ih (fun x hx => h x (List.mem_cons_of_mem _ hx))]

/-- Per-character slash count of the URL encoder: a slash stays one
slash, every other character encodes to slash-free output. -/
theorem count_slash_urlEncodeChar (c : Char) :
    (urlEncodeChar c).count '/' = if c = '/' then 1 else 0 := by
  unfold urlEncodeChar
  by_cases hc : (c == '/' || urlUnreserved c) = true
  · rw [if_pos hc]
    by_cases h : c = '/' <;> simp [h, List.count_cons]
  · rw [if_neg hc]
    have hne : ¬ c = '/' := by
      intro h
      exact hc (by simp [h])
    rw [if_neg hne]
    apply count_slash_flatMap_zero
    intro b _
    simp [percentByte, List.count_cons, hexDigit_ne_slash (b / 16), hexDigit_ne_slash (b % 16)]

/-- The URL encoder preserves the number of path separators. -/
theorem countSlash_urlEncode (s : String) : countSlash (urlEncode s) = countSlash s := by
  show (s.data.flatMap urlEncodeChar).count '/' = s.data.count '/'
  induction s.data with
  | nil => simp
  | cons c cs ih =>
    rw [List.flatMap_cons, List.count_append, ih, count_slash_urlEncodeChar, List.count_cons]
    by_cases h : c = '/' <;> simp [h] <;> omega

/-- Joining slash-free segments yields exactly the separators between
them. -/
theorem countSlash_joinSegs : ∀ (l : List String), (∀ x ∈ l, countSlash x = 0) →
    countSlash (joinSegs l) = l.length - 1 := by
  intro l
  induction l with
  | nil => intro _; simp [joinSegs, countSlash]
  | cons s t ih =>
    intro hall
    cases t with
    | nil => simpa [joinSegs, countSlash] using hall s (by simp)
    | cons u rest =>
      have hs := hall s (by simp)
      have hrec := ih (fun x hx => hall x (List.mem_cons_of_mem _ hx))
      simp only [joinSegs] at hrec ⊢
      simp only [countSlash, String.data_append] at hs hrec ⊢
      rw [List.count_append, List.count_append, hs, hrec]
      simp [List.count_cons]
      omega

/-- A valid child name contains no separator. -/
theorem childNameOk_countSlash {s : String} (h : childNameOk s = true) : countSlash s = 0 := by
  simp only [childNameOk, Bool.and_eq_true, Bool.not_eq_true'] at h
  have hmem : '/' ∉ s.data := by
    intro hmem
    have hct : s.data.contains '/' = true := List.elem_iff.mpr hmem
    rw [h.2] at hct
    exact Bool.noConfusion hct
  simpa [countSlash] using List.count_eq_zero.mpr hmem

/-! ## Helper lemmas about TouchObject -/

/-- When stat does not report ENOENT, `TouchObject` does not recurse:
its result is the same for every positive fuel. -/
theorem touchObject_fuel_indep {σ : Type} (ops : TouchOps σ) (s : σ) (fp : List String)
    (meta : Meta) (h : ops.stat s fp ≠ .error .enoent) (f g : Nat) :
    touchObject ops (f + 1) s fp meta = touchObject ops (g + 1) s fp meta := by
  cases hs : ops.stat s fp with
  | ok u => simp [touchObject, hs]
  | error e =>
    cases e <;> first
      | exact absurd hs h
      | simp [touchObject, hs]

/-! ## The claims -/

/-- C1: every WebDAV call made while serving a request bearing access
key `k` carries the header `Authorization: Bearer k` — whatever
requests preceded it in the trace and whatever state the view cache was
in — and headers of requests with distinct access keys are distinct, so
no cross-request token leakage is possible. -/
theorem c1_bearer_header_no_leakage (remoteName : String) (st : IFState) (ks : List String) :
    (∀ k h, (k, h) ∈ (serveTrace remoteName st ks).2 → h = "Bearer " ++ k) ∧
    (∀ k₁ k₂ : String, k₁ ≠ k₂ → "Bearer " ++ k₁ ≠ "Bearer " ++ k₂) := by
  constructor
  · induction ks generalizing st with
    | nil => intro k h hmem; simp [serveTrace] at hmem
    | cons k₀ ks ih =>
      intro k h hmem
      simp only [serveTrace] at hmem
      rcases List.mem_cons.mp hmem with heq | htl
      · have hh : h = (serveRequest remoteName st k₀).2 := congrArg Prod.snd heq
        have hk : k = k₀ := congrArg Prod.fst heq
        subst hk
        rw [hh, serveRequest_snd]
        unfold VFSView.authHeader
        rw [setAuthForWebDAV_bearer]
      · exact ih _ _ _ htl
  · intro k₁ k₂ hne h
    exact hne (string_append_left_cancel h)

/-- Witness for C1: a two-request trace with distinct keys, starting
from an empty cache; both observed headers are the keys' own bearer
headers and they differ. -/
theorem c1_bearer_header_no_leakage_witness :
    ("alice-token", "Bearer alice-token") ∈
      (serveTrace "dav" ⟨[]⟩ ["bob-token", "alice-token"]).2 ∧
    "Bearer alice-token" = "Bearer " ++ "alice-token" ∧
    "Bearer alice-token" ≠ "Bearer bob-token" := by
  refine ⟨by decide, ?_, ?_⟩
  · exact (c1_bearer_header_no_leakage "dav" ⟨[]⟩ ["bob-token", "alice-token"]).1
      "alice-token" "Bearer alice-token" (by decide)
  · exact (c1_bearer_header_no_leakage "dav" ⟨[]⟩ []).2 "alice-token" "bob-token"
      (by decide)

/-- C2: the identity-bound view factory caches per access key: a first
use of key `K` (no cache entry under the config name built from `K`)
hands out a view freshly bound to bearer `K` and registers it under
that name; a subsequent call for the same `K` returns exactly the
cached view and leaves the cache unchanged; and serving any other key
`K'` never disturbs (in particular never evicts) `K`'s entry, since the
cache is keyed on the access-key string exactly. -/
theorem c2_view_cache_per_access_key (remoteName : String) (st : IFState) (K : String) :
    (lookupCache st.cache (remoteName ++ K) = none →
      (setAuthForWebDAV true remoteName st K).2.bearer = K ∧
      (setAuthForWebDAV true remoteName st K).2.fsName = remoteName ++ K ∧
      lookupCache (setAuthForWebDAV true remoteName st K).1.cache (remoteName ++ K) =
        some (setAuthForWebDAV true remoteName st K).2) ∧
    (setAuthForWebDAV true remoteName (setAuthForWebDAV true remoteName st K).1 K =
      ((setAuthForWebDAV true remoteName st K).1, (setAuthForWebDAV true remoteName st K).2)) ∧
    (∀ K' : String, K' ≠ K →
      lookupCache (setAuthForWebDAV true remoteName (setAuthForWebDAV true remoteName st K).1 K').1.cache
          (remoteName ++ K) =
        lookupCache (setAuthForWebDAV true remoteName st K).1.cache (remoteName ++ K)) := by
  refine ⟨?_, ?_, ?_⟩
  · intro hmiss
    refine ⟨setAuthForWebDAV_bearer .., ?_, ?_⟩
    · simp [setAuthForWebDAV, vfsNew, hmiss]
    · simp [setAuthForWebDAV, vfsNew, hmiss, lookupCache_updateCache_self]
  · exact setAuthForWebDAV_hit (setAuthForWebDAV_registers ..) (setAuthForWebDAV_bearer ..)
  · intro K' hne
    exact setAuthForWebDAV_frame _ (fun h => hne (string_append_left_cancel h))

/-- Witness for C2: a first use of the key `tokA` on an empty cache
constructs and registers the view, a second use returns it unchanged,
and serving `tokB` leaves `tokA`'s entry in place. -/
theorem c2_view_cache_per_access_key_witness :
    lookupCache (IFState.cache ⟨[]⟩) ("dav" ++ "tokA") = none ∧
    ((setAuthForWebDAV true "dav" ⟨[]⟩ "tokA").2.bearer = "tokA" ∧
      (setAuthForWebDAV true "dav" ⟨[]⟩ "tokA").2.fsName = "dav" ++ "tokA" ∧
      lookupCache (setAuthForWebDAV true "dav" ⟨[]⟩ "tokA").1.cache ("dav" ++ "tokA") =
        some (setAuthForWebDAV true "dav" ⟨[]⟩ "tokA").2) ∧
    lookupCache
        (setAuthForWebDAV true "dav" (setAuthForWebDAV true "dav" ⟨[]⟩ "tokA").1 "tokB").1.cache
        ("dav" ++ "tokA") =
      lookupCache (setAuthForWebDAV true "dav" ⟨[]⟩ "tokA").1.cache ("dav" ++ "tokA") := by
  refine ⟨by decide, ?_, ?_⟩
  · exact (c2_view_cache_per_access_key "dav" ⟨[]⟩ "tokA").1 (by decide)
  · exact (c2_view_cache_per_access_key "dav" ⟨[]⟩ "tokA").2.2 "tokB" (by decide)

/-- C3 counterexample: with the bucket `b` present (and empty), listing
with prefix `a/x` — whose path component `a` does not exist under the
bucket — and delimiter `/` makes `ListBucket` return the no-such-key
error, not the empty object list with no error that the claim
asserts. -/
theorem c3_missing_prefix_counterexample :
    listBucket 1 false (.dir 0 [("b", .dir 0 [])]) "b"
        ⟨true, "a/x", true, "/"⟩ ⟨none, none⟩ = .error .errNoSuchKey ∧
    ∀ l : List ListItem,
      listBucket 1 false (.dir 0 [("b", .dir 0 [])]) "b"
        ⟨true, "a/x", true, "/"⟩ ⟨none, none⟩ ≠ .ok l := by
  have h : listBucket 1 false (.dir 0 [("b", .dir 0 [])]) "b"
      ⟨true, "a/x", true, "/"⟩ ⟨none, none⟩ = .error .errNoSuchKey := by
    simp [listBucket, entryListR, getDirEntries, FSNode.lookup, findChild, prefixParser,
      splitChar, splitCharAux, trimSpace]
  exact ⟨h, fun l hl => by rw [h] at hl; exact Except.noConfusion hl⟩

/-- C3 (amended): for an existing bucket and a prefix whose resolved
path component does not exist under that bucket, `ListBucket` does not
return an empty list — the readdir failure on the missing path is
surfaced to the caller as the engine's no-such-key error (this
`ListBucket` lacks the branch upstream rclone has that converts the
error into an empty response).  Stated for a non-bucket-based remote
with the delimiter `"/"`, absent, or blank — the cases routed through
`entryListR`. -/
theorem c3_missing_prefix_error (fuel : Nat) (root : FSNode) (bucket : String)
    (pfx : PrefixQ) (page : ListBucketPage) (nb : FSNode)
    (hb : root.lookup [bucket] = some nb)
    (hdel : pfx.delimiter = "/" ∨ pfx.hasDelimiter = false ∨ trimSpace pfx.delimiter = "")
    (hmiss : root.lookup (bucket :: (prefixParser pfx.prefixStr).1) = none)
    (hfuel : fuel ≠ 0) :
    listBucket fuel false root bucket pfx page = .error .errNoSuchKey := by
  by_cases h2 : trimSpace pfx.delimiter = ""
  · by_cases h1 : trimSpace pfx.prefixStr = "" <;>
      simp [listBucket, hb, h1, h2, entryListR_err hmiss hfuel]
  · have hcase : pfx.delimiter = "/" ∨ pfx.hasDelimiter = false := by
      rcases hdel with h | h | h
      · exact Or.inl h
      · exact Or.inr h
      · exact absurd h h2
    rcases hcase with hc | hc
    · rw [hc] at h2
      by_cases h1 : trimSpace pfx.prefixStr = "" <;>
        simp [listBucket, hb, h1, h2, hc, entryListR_err hmiss hfuel]
    · by_cases h1 : trimSpace pfx.prefixStr = "" <;>
        simp [listBucket, hb, h1, h2, hc, entryListR_err hmiss hfuel]

/-- Witness for C3's amended theorem: the counterexample configuration
discharges its hypotheses, and the amended conclusion evaluates there
to the no-such-key error. -/
theorem c3_missing_prefix_error_witness :
    (FSNode.dir 0 [("b", .dir 0 [])]).lookup ["b"] = some (.dir 0 []) ∧
    (FSNode.dir 0 [("b", .dir 0 [])]).lookup
      ("b" :: (prefixParser "a/x").1) = none ∧
    listBucket 1 false (.dir 0 [("b", .dir 0 [])]) "b"
      ⟨true, "a/x", true, "/"⟩ ⟨none, none⟩ = .error .errNoSuchKey := by
  refine ⟨rfl, rfl, ?_⟩
  exact c3_missing_prefix_error 1 (.dir 0 [("b", .dir 0 [])]) "b"
    ⟨true, "a/x", true, "/"⟩ ⟨none, none⟩ (.dir 0 []) rfl (Or.inl rfl) rfl
    (by decide)

/-- C4: with grouping on (`delimiter = "/"`), the walk emits each
matching directory entry as a common prefix and never recurses into it
— the response is exactly one item per matching immediate entry; for
slash-free segment and entry names every content key then carries
exactly `fdPath.length` separators, so no returned content key contains
a `/` beyond the resolved prefix path; with no delimiter, directories
are recursed into with an empty name component and the walk collects
exactly the matching descendant files. -/
theorem c4_delimiter_semantics (fuel : Nat) (root : FSNode) (bucket : String)
    (fdPath : List String) (name : String) (m : Int) (ch : List (String × FSNode))
    (hlook : root.lookup (bucket :: fdPath) = some (.dir m ch)) :
    (entryListR (fuel + 1) root bucket fdPath name true =
        .ok (expectedTopLevel fdPath name ch)) ∧
    ((∀ x ∈ fdPath, countSlash x = 0) → wfChildren ch = true →
      ∀ key mt et sz, ListItem.content key mt et sz ∈ expectedTopLevel fdPath name ch →
        countSlash key = fdPath.length) ∧
    (wfChildren ch = true → depthChildren ch < fuel →
      entryListR fuel root bucket fdPath name false =
        .ok (expectedContents fdPath name ch)) := by
  refine ⟨?_, ?_, ?_⟩
  · simp only [entryListR, getDirEntries, hlook]
    exact entryListLoop_top fuel root bucket fdPath name ch
  · intro hseg hwf key mt et sz hmem
    simp only [expectedTopLevel, List.mem_map] at hmem
    obtain ⟨e, hef, hitem⟩ := hmem
    have hememb : e ∈ ch := List.mem_of_mem_filter hef
    obtain ⟨o, node⟩ := e
    cases node with
    | dir mm cs => simp at hitem
    | file cc mm =>
      simp only [ListItem.content.injEq] at hitem
      have hok : childNameOk o = true :=
        findChild_nameOk hwf (findChild_of_mem hwf hememb)
      have hkey : key = urlEncode (joinSeg fdPath o) := hitem.1.symm
      rw [hkey, joinSeg, countSlash_urlEncode, countSlash_joinSegs]
      · simp
      · intro x hx
        rcases List.mem_append.mp hx with hx | hx
        · exact hseg x hx
        · rw [List.mem_singleton.mp hx]
          exact childNameOk_countSlash hok
  · intro hwf hfuel
    exact entryListR_complete fuel root bucket fdPath name m ch hlook hwf hfuel

/-- Witness for C4: a two-level bucket — with the delimiter the
subdirectory shows up as a common prefix only and the content key `g`
has no separator; without it the walk returns the nested file `d/f` and
`g`. -/
theorem c4_delimiter_semantics_witness :
    (FSNode.dir 0 [("b", .dir 0 [("d", .dir 0 [("f", .file [1] 5)]), ("g", .file [2] 6)])]).lookup
        ["b"] = some (.dir 0 [("d", .dir 0 [("f", .file [1] 5)]), ("g", .file [2] 6)]) ∧
    entryListR 2 (.dir 0 [("b", .dir 0 [("d", .dir 0 [("f", .file [1] 5)]), ("g", .file [2] 6)])])
        "b" [] "" true =
      .ok [.commonPrefix "d", .content "g" 6 (getFileHash [2]) 1] ∧
    entryListR 2 (.dir 0 [("b", .dir 0 [("d", .dir 0 [("f", .file [1] 5)]), ("g", .file [2] 6)])])
        "b" [] "" false =
      .ok [.content "d/f" 5 (getFileHash [1]) 1, .content "g" 6 (getFileHash [2]) 1] := by
  refine ⟨rfl, ?_, ?_⟩
  · have h := (c4_delimiter_semantics 1
      (.dir 0 [("b", .dir 0 [("d", .dir 0 [("f", .file [1] 5)]), ("g", .file [2] 6)])])
      "b" [] "" 0 [("d", .dir 0 [("f", .file [1] 5)]), ("g", .file [2] 6)] rfl).1
    rw [h]
    simp [expectedTopLevel, hasPrefixStr, joinSeg, joinSegs, urlEncode, urlEncodeChar,
      urlUnreserved]
  · have h := (c4_delimiter_semantics 2
      (.dir 0 [("b", .dir 0 [("d", .dir 0 [("f", .file [1] 5)]), ("g", .file [2] 6)])])
      "b" [] "" 0 [("d", .dir 0 [("f", .file [1] 5)]), ("g", .file [2] 6)] rfl).2.2
      (by rfl) (by simp [depthChildren, depthNode])
    rw [h]
    simp [expectedContents, descFilesEntry, descFilesChildren, contentItemOf, hasPrefixStr,
      joinSegs, urlEncode, urlEncodeChar, urlUnreserved]

/-- C5: over an existing object of size `S` (a file of `S` bytes),
`GetObject` with a range request `(start, length)` fails with
InvalidRange exactly when `start < 0` or `start ≥ S`, and otherwise
serves the half-open window starting at `start` whose length is
`length` clamped to `S - start`: the returned reader holds exactly
those bytes, the reported range is the clamped one and the reported
size stays the full object size. -/
theorem c5_get_object_range (st : BEState) (bucketName objectName : String)
    (nb : FSNode) (contents : List Nat) (mt : Int) (start length : Int)
    (hb : st.fs.lookup [bucketName] = some nb)
    (hf : st.fs.lookup (objectPath bucketName objectName) = some (.file contents mt)) :
    ((start < 0 ∨ start ≥ (contents.length : Int)) →
      getObject st bucketName objectName (some (start, length)) = .error .invalidRange) ∧
    (∀ e, getObject st bucketName objectName (some (start, length)) = .error e →
      e = .invalidRange ∧ (start < 0 ∨ start ≥ (contents.length : Int))) ∧
    (¬(start < 0 ∨ start ≥ (contents.length : Int)) →
      getObject st bucketName objectName (some (start, length)) =
        .ok { name := urlEncode objectName
              contents :=
                (contents.drop start.toNat).take (min length ((contents.length : Int) - start)).toNat
              size := (contents.length : Int)
              ranged := some (start, min length ((contents.length : Int) - start))
              meta := (loadMeta st.meta (objectPath bucketName objectName)).getD [] }) := by
  refine ⟨?_, ?_, ?_⟩
  · intro hr
    simp [getObject, hb, hf, rangeOf, hr]
  · intro e he
    by_cases hr : start < 0 ∨ start ≥ (contents.length : Int)
    · simp [getObject, hb, hf, rangeOf, hr] at he
      exact ⟨he.symm, hr⟩
    · simp [getObject, hb, hf, rangeOf, hr] at he
  · intro hr
    simp [getObject, hb, hf, rangeOf, hr]

/-- Witness for C5: a four-byte object; the range `[1, 1+2)` returns
bytes two and three, the range starting at `7` is InvalidRange. -/
theorem c5_get_object_range_witness :
    (FSNode.dir 0 [("b", .dir 0 [("o", .file [10, 11, 12, 13] 0)])]).lookup ["b"] =
        some (.dir 0 [("o", .file [10, 11, 12, 13] 0)]) ∧
    (FSNode.dir 0 [("b", .dir 0 [("o", .file [10, 11, 12, 13] 0)])]).lookup
        (objectPath "b" "o") = some (.file [10, 11, 12, 13] 0) ∧
    (getObject ⟨.dir 0 [("b", .dir 0 [("o", .file [10, 11, 12, 13] 0)])], []⟩
        "b" "o" (some (1, 2))).map S3Object.contents = .ok [11, 12] ∧
    getObject ⟨.dir 0 [("b", .dir 0 [("o", .file [10, 11, 12, 13] 0)])], []⟩
        "b" "o" (some (7, 2)) = .error .invalidRange := by
  refine ⟨rfl, rfl, ?_, ?_⟩
  · have h := (c5_get_object_range
      ⟨.dir 0 [("b", .dir 0 [("o", .file [10, 11, 12, 13] 0)])], []⟩
      "b" "o" (.dir 0 [("o", .file [10, 11, 12, 13] 0)]) [10, 11, 12, 13] 0 1 2
      rfl rfl).2.2 (by simp)
    rw [h]
    rfl
  · exact (c5_get_object_range
      ⟨.dir 0 [("b", .dir 0 [("o", .file [10, 11, 12, 13] 0)])], []⟩
      "b" "o" (.dir 0 [("o", .file [10, 11, 12, 13] 0)]) [10, 11, 12, 13] 0 7 2
      rfl rfl).1 (by simp)

/-- C6: a `PutObject` of positive size whose body copy — or whose file
close — fails, returns the I/O error and restores the state: the
partially written file is removed (the object path no longer resolves
in the resulting tree) and no metadata overlay entry is stored for the
path (the overlay is exactly what it was). -/
theorem c6_put_object_error_cleanup (st : BEState) (bucketName objectName : String)
    (meta : Meta) (pio : PutIO) (size : Int) (nb fs₀ fs₁ : FSNode)
    (hb : st.fs.lookup [bucketName] = some nb)
    (hmk : mkdirRecursive st.fs (objectPath bucketName objectName).dropLast = .ok fs₀)
    (hwf : fs₀.wf = true)
    (hseg : ∀ s ∈ objectPath bucketName objectName, childNameOk s = true)
    (hcr : createAt fs₀ (objectPath bucketName objectName) (.file [] 0) = .ok fs₁)
    (hio : pio.copyRes = .error () ∨ pio.closeRes = .error ())
    (hsize : 0 < size) :
    (putObject st bucketName objectName meta pio size).2 = .error .ioErr ∧
    (putObject st bucketName objectName meta pio size).1.meta = st.meta ∧
    (putObject st bucketName objectName meta pio size).1.fs.lookup
        (objectPath bucketName objectName) = none := by
  have hszne : ¬ size = 0 := by omega
  have hwf₁ : fs₁.wf = true :=
    createAt_wf hwf (show (FSNode.file [] 0).wf = true from rfl) hseg hcr
  have hlk₁ : fs₁.lookup (objectPath bucketName objectName) = some (.file [] 0) :=
    createAt_lookup hcr
  obtain ⟨b', rest, hshape⟩ : ∃ b' rest, objectPath bucketName objectName = b' :: rest :=
    ⟨bucketName, splitChar objectName '/', rfl⟩
  obtain ⟨fs₂, hrm⟩ : ∃ fs₂, removeAt fs₁ (objectPath bucketName objectName) = .ok fs₂ := by
    rw [hshape] at hlk₁ ⊢
    exact removeAt_ok_of_file hlk₁
  have hnone : fs₂.lookup (objectPath bucketName objectName) = none :=
    removeAt_lookup_none hwf₁ hrm
  rcases hio with hio | hio
  · simp [putObject, hb, hmk, hszne, hcr, hio, hrm, hnone]
  · cases hcopy : pio.copyRes with
    | error u =>
      simp [putObject, hb, hmk, hszne, hcr, hcopy, hrm, hnone]
    | ok bytes =>
      simp [putObject, hb, hmk, hszne, hcr, hcopy, hio, hrm, hnone]

/-- Witness for C6: a one-file put whose body copy fails; the result is
the I/O error, the overlay stays empty and the path is gone. -/
theorem c6_put_object_error_cleanup_witness :
    (FSNode.dir 0 [("b", .dir 0 [])]).lookup ["b"] = some (.dir 0 []) ∧
    mkdirRecursive (.dir 0 [("b", .dir 0 [])]) (objectPath "b" "k").dropLast =
      .ok (.dir 0 [("b", .dir 0 [])]) ∧
    FSNode.wf (.dir 0 [("b", .dir 0 [])]) = true ∧
    createAt (.dir 0 [("b", .dir 0 [])]) (objectPath "b" "k") (.file [] 0) =
      .ok (.dir 0 [("b", .dir 0 [("k", .file [] 0)])]) ∧
    (putObject ⟨.dir 0 [("b", .dir 0 [])], []⟩ "b" "k" [("a", "1")]
        ⟨.error (), .ok ()⟩ 3).2 = .error .ioErr ∧
    (putObject ⟨.dir 0 [("b", .dir 0 [])], []⟩ "b" "k" [("a", "1")]
        ⟨.error (), .ok ()⟩ 3).1.meta = [] ∧
    (putObject ⟨.dir 0 [("b", .dir 0 [])], []⟩ "b" "k" [("a", "1")]
        ⟨.error (), .ok ()⟩ 3).1.fs.lookup (objectPath "b" "k") = none := by
  refine ⟨rfl, by simp [mkdirRecursive, mkdirRecursiveAux, objectPath, splitChar, splitCharAux,
    FSNode.lookup, findChild], rfl, rfl, ?_⟩
  have h := c6_put_object_error_cleanup ⟨.dir 0 [("b", .dir 0 [])], []⟩ "b" "k" [("a", "1")]
    ⟨.error (), .ok ()⟩ 3 (.dir 0 []) (.dir 0 [("b", .dir 0 [])])
    (.dir 0 [("b", .dir 0 [("k", .file [] 0)])]) rfl
    (by simp [mkdirRecursive, mkdirRecursiveAux, objectPath, splitChar, splitCharAux,
      FSNode.lookup, findChild])
    rfl (by decide) rfl (Or.inl rfl) (by omega)
  exact ⟨h.1, h.2.1, h.2.2⟩

/-- C7: a same-path `CopyObject` streams no object data: it replaces
the metadata overlay entry for the path with the supplied metadata,
leaves the contents of every file in the tree unchanged, and touches
the filesystem only through `Chtimes` — invoked exactly when the
metadata carries `X-Amz-Meta-Mtime` (or, when that is absent, `mtime`)
parsing as a float-seconds time; with no such value the tree is
untouched and the call succeeds. -/
theorem c7_copy_object_same_path (st : BEState) (bucket key : String) (meta : Meta) :
    (copyObject st bucket key bucket key meta).1.meta =
        metaStore st.meta (objectPath bucket key) meta ∧
    (∀ q, fileContentsAt (copyObject st bucket key bucket key meta).1.fs q =
        fileContentsAt st.fs q) ∧
    (∀ v ti, copyMtimeOf meta = some v → floatStringToTime v = some ti →
      ((∃ fs', chtimesAt st.fs (objectPath bucket key) ti = .ok fs' ∧
          (copyObject st bucket key bucket key meta).1.fs = fs' ∧
          (copyObject st bucket key bucket key meta).2 = .ok ()) ∨
        (∃ e, chtimesAt st.fs (objectPath bucket key) ti = .error e ∧
          (copyObject st bucket key bucket key meta).1.fs = st.fs ∧
          (copyObject st bucket key bucket key meta).2 = .error e))) ∧
    ((copyMtimeOf meta = none ∨
        ∃ v, copyMtimeOf meta = some v ∧ floatStringToTime v = none) →
      (copyObject st bucket key bucket key meta).1.fs = st.fs ∧
      (copyObject st bucket key bucket key meta).2 = .ok ()) := by
  cases hx : copyMtimeOf meta with
  | none =>
    have hco : copyObject st bucket key bucket key meta =
        ({ st with meta := metaStore st.meta (objectPath bucket key) meta }, .ok ()) := by
      simp [copyObject, hx]
    rw [hco]
    refine ⟨rfl, fun q => rfl, ?_, fun _ => ⟨rfl, rfl⟩⟩
    intro v ti hv
    exact absurd hv (by simp)
  | some v =>
    cases hp : floatStringToTime v with
    | none =>
      have hco : copyObject st bucket key bucket key meta =
          ({ st with meta := metaStore st.meta (objectPath bucket key) meta }, .ok ()) := by
        simp [copyObject, hx, hp]
      rw [hco]
      refine ⟨rfl, fun q => rfl, ?_, fun _ => ⟨rfl, rfl⟩⟩
      intro v' ti hv' hp'
      have hveq : v' = v := (Option.some.inj hv').symm
      rw [hveq, hp] at hp'
      exact absurd hp' (by simp)
    | some ti =>
      cases hch : chtimesAt st.fs (objectPath bucket key) ti with
      | ok fs' =>
        have hco : copyObject st bucket key bucket key meta =
            ({ fs := fs', meta := metaStore st.meta (objectPath bucket key) meta }, .ok ()) := by
          simp [copyObject, hx, hp, hch]
        rw [hco]
        refine ⟨rfl, fun q => chtimesAt_contents hch q, ?_, ?_⟩
        · intro v' ti' hv' hp'
          have hveq : v' = v := (Option.some.inj hv').symm
          rw [hveq, hp] at hp'
          have htieq : ti' = ti := (Option.some.inj hp').symm
          rw [htieq]
          exact Or.inl ⟨fs', hch, rfl, rfl⟩
        · intro habs
          rcases habs with h | ⟨v', hv', hp'⟩
          · exact absurd h (by simp)
          · have hveq : v' = v := (Option.some.inj hv').symm
            rw [hveq, hp] at hp'
            exact absurd hp' (by simp)
      | error e =>
        have hco : copyObject st bucket key bucket key meta =
            ({ st with meta := metaStore st.meta (objectPath bucket key) meta }, .error e) := by
          simp [copyObject, hx, hp, hch]
        rw [hco]
        refine ⟨rfl, fun q => rfl, ?_, ?_⟩
        · intro v' ti' hv' hp'
          have hveq : v' = v := (Option.some.inj hv').symm
          rw [hveq, hp] at hp'
          have htieq : ti' = ti := (Option.some.inj hp').symm
          rw [htieq]
          exact Or.inr ⟨e, hch, rfl, rfl⟩
        · intro habs
          rcases habs with h | ⟨v', hv', hp'⟩
          · exact absurd h (by simp)
          · have hveq : v' = v := (Option.some.inj hv').symm
            rw [hveq, hp] at hp'
            exact absurd hp' (by simp)

/-- Witness for C7: same-path copy over a one-object bucket with a
parsable metadata mtime: the overlay entry is stored, every file's
contents are untouched, and chtimes applied the parsed time. -/
theorem c7_copy_object_same_path_witness :
    copyMtimeOf [("X-Amz-Meta-Mtime", "7")] = some "7" ∧
    floatStringToTime "7" = some 7 ∧
    (copyObject ⟨.dir 0 [("b", .dir 0 [("o", .file [9] 1)])], []⟩ "b" "o" "b" "o"
        [("X-Amz-Meta-Mtime", "7")]).1.meta =
      metaStore [] (objectPath "b" "o") [("X-Amz-Meta-Mtime", "7")] ∧
    fileContentsAt (copyObject ⟨.dir 0 [("b", .dir 0 [("o", .file [9] 1)])], []⟩ "b" "o" "b" "o"
        [("X-Amz-Meta-Mtime", "7")]).1.fs (objectPath "b" "o") =
      fileContentsAt (.dir 0 [("b", .dir 0 [("o", .file [9] 1)])]) (objectPath "b" "o") ∧
    (copyObject ⟨.dir 0 [("b", .dir 0 [("o", .file [9] 1)])], []⟩ "b" "o" "b" "o"
        [("X-Amz-Meta-Mtime", "7")]).1.fs =
      .dir 0 [("b", .dir 0 [("o", .file [9] 7)])] := by
  have h := c7_copy_object_same_path ⟨.dir 0 [("b", .dir 0 [("o", .file [9] 1)])], []⟩
    "b" "o" [("X-Amz-Meta-Mtime", "7")]
  refine ⟨rfl, rfl, h.1, h.2.1 (objectPath "b" "o"), ?_⟩
  rcases h.2.2.1 "7" 7 rfl rfl with ⟨fs', hch, hfs, _⟩ | ⟨e, hch, _, _⟩
  · rw [hfs]
    have : fs' = .dir 0 [("b", .dir 0 [("o", .file [9] 7)])] := by
      have hch' : chtimesAt (.dir 0 [("b", .dir 0 [("o", .file [9] 1)])])
          (objectPath "b" "o") 7 =
          .ok (.dir 0 [("b", .dir 0 [("o", .file [9] 7)])]) := rfl
      rw [hch'] at hch
      exact (Except.ok.inj hch).symm
    rw [this]
  · have hch' : chtimesAt (.dir 0 [("b", .dir 0 [("o", .file [9] 1)])])
        (objectPath "b" "o") 7 =
        .ok (.dir 0 [("b", .dir 0 [("o", .file [9] 7)])]) := rfl
    rw [hch'] at hch
    exact absurd hch (by simp)

/-- C8: deleting a key that does not exist in an existing bucket
succeeds, and deleting it again from the resulting state succeeds too —
the missing-object error from the underlying remove is swallowed both
times (stated for a remote that can have empty directories, as WebDAV
can, so the best-effort parent cleanup runs as well). -/
theorem c8_delete_missing_idempotent (st : BEState) (bucketName objectName : String)
    (mb : Int) (chb : List (String × FSNode))
    (hwf : st.fs.wf = true)
    (hb : st.fs.lookup [bucketName] = some (.dir mb chb))
    (hmiss : st.fs.lookup (objectPath bucketName objectName) = none) :
    (deleteObjectLocked true st bucketName objectName).2 = .ok () ∧
    (deleteObjectLocked true (deleteObjectLocked true st bucketName objectName).1
        bucketName objectName).2 = .ok () := by
  have hrm := removeAt_of_lookup_none hmiss
  have hfirst : deleteObjectLocked true st bucketName objectName =
      ({ st with fs := rmdirRecursive st.fs (objectPath bucketName objectName) }, .ok ()) := by
    simp [deleteObjectLocked, hb, hrm, isNotExist]
  obtain ⟨hwf', hnone', hsome'⟩ :=
    rmdirRecursive_invariants (objectPath bucketName objectName).length
      (objectPath bucketName objectName) le_rfl st.fs hwf
  refine ⟨by rw [hfirst], ?_⟩
  rw [hfirst]
  have hmiss₂ := hnone' _ hmiss
  have hb₂ := hsome' bucketName (by rw [hb]; rfl)
  have hrm₂ := removeAt_of_lookup_none hmiss₂
  cases hlk : (rmdirRecursive st.fs (objectPath bucketName objectName)).lookup [bucketName] with
  | none => rw [hlk] at hb₂; exact Bool.noConfusion hb₂
  | some nd => simp [deleteObjectLocked, hlk, hrm₂, isNotExist]

/-- Witness for C8: bucket `b` holds one unrelated object; deleting the
missing key `d/y` succeeds twice. -/
theorem c8_delete_missing_idempotent_witness :
    FSNode.wf (.dir 0 [("b", .dir 0 [("d", .dir 0 [("x", .file [] 0)])])]) = true ∧
    (FSNode.dir 0 [("b", .dir 0 [("d", .dir 0 [("x", .file [] 0)])])]).lookup ["b"] =
      some (.dir 0 [("d", .dir 0 [("x", .file [] 0)])]) ∧
    (FSNode.dir 0 [("b", .dir 0 [("d", .dir 0 [("x", .file [] 0)])])]).lookup
      (objectPath "b" "d/y") = none ∧
    (deleteObjectLocked true ⟨.dir 0 [("b", .dir 0 [("d", .dir 0 [("x", .file [] 0)])])], []⟩
        "b" "d/y").2 = .ok () ∧
    (deleteObjectLocked true
        (deleteObjectLocked true ⟨.dir 0 [("b", .dir 0 [("d", .dir 0 [("x", .file [] 0)])])], []⟩
          "b" "d/y").1 "b" "d/y").2 = .ok () := by
  have h := c8_delete_missing_idempotent
    ⟨.dir 0 [("b", .dir 0 [("d", .dir 0 [("x", .file [] 0)])])], []⟩ "b" "d/y"
    0 [("d", .dir 0 [("x", .file [] 0)])] (by rfl) rfl rfl
  exact ⟨by rfl, rfl, rfl, h.1, h.2⟩

/-- C10: `TouchObject` terminates with self-recursion depth at most one
under the precondition that a successful create makes a following stat
stop reporting ENOENT: fuel two then already determines the result —
more fuel never changes it.  Without that precondition the recursion is
unbounded: a filesystem behaviour whose stat keeps reporting ENOENT
while create succeeds exhausts every fuel bound. -/
theorem c10_touch_object_recursion_depth :
    (∀ (σ : Type) (ops : TouchOps σ) (fp : List String) (meta : Meta),
      (∀ s s', ops.create s fp = .ok s' → ops.stat s' fp ≠ .error .enoent) →
      ∀ (s : σ) (fuel : Nat),
        touchObject ops (fuel + 2) s fp meta = touchObject ops 2 s fp meta) ∧
    (∀ (fuel : Nat) (fp : List String) (meta : Meta),
      (touchObject badTouchOps fuel () fp meta).2 = .error .outOfFuel) := by
  constructor
  · intro σ ops fp meta hpre s fuel
    cases hs : ops.stat s fp with
    | ok u =>
      exact touchObject_fuel_indep ops s fp meta (by rw [hs]; simp) (fuel + 1) 1
    | error e =>
      cases e with
      | enoent =>
        show touchObject ops (fuel + 1 + 1) s fp meta = touchObject ops (1 + 1) s fp meta
        simp only [touchObject, hs]
        cases hc : ops.create s fp with
        | error e' => rfl
        | ok s₁ =>
          exact touchObject_fuel_indep ops s₁ fp meta (hpre s s₁ hc) fuel 0
      | enotempty => exact touchObject_fuel_indep ops s fp meta (by rw [hs]; simp) (fuel + 1) 1
      | unauthorized => exact touchObject_fuel_indep ops s fp meta (by rw [hs]; simp) (fuel + 1) 1
      | ioErr => exact touchObject_fuel_indep ops s fp meta (by rw [hs]; simp) (fuel + 1) 1
      | bucketNotFound b => exact touchObject_fuel_indep ops s fp meta (by rw [hs]; simp) (fuel + 1) 1
      | keyNotFound k => exact touchObject_fuel_indep ops s fp meta (by rw [hs]; simp) (fuel + 1) 1
      | errNoSuchKey => exact touchObject_fuel_indep ops s fp meta (by rw [hs]; simp) (fuel + 1) 1
      | errInternal => exact touchObject_fuel_indep ops s fp meta (by rw [hs]; simp) (fuel + 1) 1
      | errBucketAlreadyExists => exact touchObject_fuel_indep ops s fp meta (by rw [hs]; simp) (fuel + 1) 1
      | errBucketNotEmpty => exact touchObject_fuel_indep ops s fp meta (by rw [hs]; simp) (fuel + 1) 1
      | invalidRange => exact touchObject_fuel_indep ops s fp meta (by rw [hs]; simp) (fuel + 1) 1
      | outOfFuel => exact touchObject_fuel_indep ops s fp meta (by rw [hs]; simp) (fuel + 1) 1
  · intro fuel
    induction fuel with
    | zero => intro fp meta; rfl
    | succ f ih =>
      intro fp meta
      show (touchObject badTouchOps (f + 1) () fp meta).2 = .error .outOfFuel
      simp only [touchObject, badTouchOps]
      exact ih fp meta

/-- Witness for C10: a well-behaved filesystem satisfies the
precondition, fuel five and fuel two agree on it; the violating
behaviour exhausts fuel four. -/
theorem c10_touch_object_recursion_depth_witness :
    (∀ s s' : Unit, okTouchOps.create s ["b", "k"] = .ok s' →
      okTouchOps.stat s' ["b", "k"] ≠ .error .enoent) ∧
    touchObject okTouchOps 5 () ["b", "k"] [] = touchObject okTouchOps 2 () ["b", "k"] [] ∧
    (touchObject badTouchOps 4 () ["b", "k"] []).2 = .error .outOfFuel := by
  refine ⟨?_, ?_, ?_⟩
  · intro s s' _ h
    simp [okTouchOps] at h
  · exact c10_touch_object_recursion_depth.1 Unit okTouchOps ["b", "k"] []
      (fun s s' _ h => by simp [okTouchOps] at h) () 3
  · exact c10_touch_object_recursion_depth.2 4 ["b", "k"] []

/-- C9: `BucketExists` never returns a non-nil error: the result is
`(true, nil)` exactly when the stat on the bucket name succeeds and
`(false, nil)` on every stat failure — including an `unauthorized`
failure from the WebDAV backend, which thus reads as "bucket does not
exist" rather than as AccessDenied. -/
theorem c9_bucket_exists_never_errors (vf : StatOracle) (name : String) :
    bucketExists vf name = .ok (vf.stat name).isOk := by
  unfold bucketExists
  cases vf.stat name <;> rfl

end RcloneServeS3
